import Mathlib

set_option maxHeartbeats 1600000

/-!
Shallow embedding of the mapbox/fuzzy-phrase core (the three-byte codec,
the PhraseSet trie queries, and the FuzzyMap build/lookup pipeline),
with proofs of the specification claims about it.
-/

/-- Lexicographic strict comparison of byte strings, as Rust's `Ord` on
`Vec<u8>`/`&[u8]` compares them (bytes are modelled as `Nat`). -/
def lexLt : List Nat → List Nat → Bool
  | [], [] => false
  | [], _ :: _ => true
  | _ :: _, [] => false
  | a :: as, b :: bs => a < b || (a == b && lexLt as bs)

/-- Lexicographic `≤` on byte strings (total order companion of `lexLt`). -/
def lexLe (x y : List Nat) : Bool := lexLt x y || x == y

/-- `util::chop_int`: the 8 bytes of a `u64` in big-endian order. -/
def chop_int (num : Nat) : List Nat :=
  [num / 2^56 % 256, num / 2^48 % 256, num / 2^40 % 256, num / 2^32 % 256,
   num / 2^24 % 256, num / 2^16 % 256, num / 2^8 % 256, num % 256]

/-- `util::three_byte_encode`: bytes `5..8` of the chopped integer. -/
def three_byte_encode (num : Nat) : List Nat := (chop_int num).drop 5

/-- `util::three_byte_decode`: pad with five zero bytes and read a
big-endian `u64` (the reader consumes the first 8 bytes). -/
def three_byte_decode (three_bytes : List Nat) : Nat :=
  ((List.replicate 5 0 ++ three_bytes).take 8).foldl (fun acc b => acc * 256 + b) 0

/-- `util::phrase_to_key`: concatenation of the 3-byte encodings. -/
def phrase_to_key (phrase : List Nat) : List Nat :=
  (phrase.map three_byte_encode).flatten

/-- Wrapping subtraction on `usize` (the loop bound `key.len() - 2`
underflows when `key.len() < 2`). -/
def usize_sub (a b : Nat) : Nat := if b ≤ a then a - b else a + 2^64 - b

/-- The slice `&key[i..i+3]`; `none` models the out-of-bounds panic. -/
def subslice3 (key : List Nat) (i : Nat) : Option (List Nat) :=
  if i + 3 ≤ key.length then some ((key.drop i).take 3) else none

/-- The `while i < bound` loop of `util::key_to_phrase`; `none` models a
slice-indexing panic. -/
def ktp_go (key : List Nat) (bound i : Nat) : Option (List Nat) :=
  if _h : i < bound then
    match subslice3 key i with
    | none => none
    | some w => (ktp_go key bound (i + 3)).map (fun rest => three_byte_decode w :: rest)
  else
    some []
termination_by bound - i
decreasing_by omega

/-- `util::key_to_phrase`, with the loop bound computed by wrapping
`usize` subtraction as in the source; `none` models a panic. -/
def key_to_phrase (key : List Nat) : Option (List Nat) :=
  ktp_go key (usize_sub key.length 2) 0

/-! ### The FST automaton of a `PhraseSet`

`fst::raw::Fst` (the external `fst` crate) exposes, for the node reached by
any byte path: `is_final`, the ordered transition list, `find_input`, and
`is_empty`.  A minimal automaton built from a set of byte strings behaves,
through this interface, exactly like the prefix tree of those strings, so
the model is a trie whose transition lists are strictly sorted by input
byte and in which every node lies on a path to some final node. -/

inductive Node where
  | node (final : Bool) (ts : List (Nat × Node)) : Node

/-- `node.is_final()` of the `fst` crate. -/
def Node.is_final : Node → Bool
  | .node f _ => f

/-- `node.transitions()` of the `fst` crate: input byte and target node. -/
def Node.transitions : Node → List (Nat × Node)
  | .node _ ts => ts

/-- `node.is_empty()`: no outgoing transitions. -/
def Node.is_empty (n : Node) : Bool := n.transitions.isEmpty

/-- `node.find_input(b)` composed with `fst.node(node.transition_addr(i))`:
the target of the transition on byte `b`, if any. -/
def Node.find_input (n : Node) (b : Nat) : Option Node :=
  match n.transitions.find? (fun t => t.1 == b) with
  | some t => some t.2
  | none => none

/-- `PhraseSet::partial_search`: byte-by-byte walk from a node. -/
def partial_search : Node → List Nat → Option Node
  | n, [] => some n
  | n, b :: bs =>
    match n.find_input b with
    | none => none
    | some m => partial_search m bs

/-- `fst::Set::contains` (external crate): automaton acceptance. -/
def Node.accepts (n : Node) (key : List Nat) : Bool :=
  match partial_search n key with
  | some m => m.is_final
  | none => false

mutual

/-- The ordered key stream of `fst::Set` (external crate): depth-first,
lexicographic enumeration of the accepted byte strings. -/
def streamKeys : Node → List (List Nat)
  | .node f ts => (if f then [[]] else []) ++ streamKeysList ts

def streamKeysList : List (Nat × Node) → List (List Nat)
  | [] => []
  | (b, c) :: rest => (streamKeys c).map (fun k => b :: k) ++ streamKeysList rest

end

/-- Strict ascending order of a byte list. -/
def sortedStrict : List Nat → Bool
  | [] => true
  | [_] => true
  | a :: b :: rest => a < b && sortedStrict (b :: rest)

mutual

/-- Well-formedness of the automaton model: transition lists are strictly
sorted by input byte (the `fst` crate stores them so), and every node is
final or has a transition (every node of a minimal automaton lies on a
path to some final node). -/
def Node.wf : Node → Bool
  | .node f ts => sortedStrict (ts.map Prod.fst) && (f || !ts.isEmpty) && wfList ts

def wfList : List (Nat × Node) → Bool
  | [] => true
  | (_, c) :: rest => Node.wf c && wfList rest

end

/-- All byte paths of length `d + 1` leaving a transition list, in
depth-first (lexicographic, for sorted tries) order. -/
def pathsDown : Nat → List (Nat × Node) → List (List Nat)
  | 0, ts => ts.map (fun t => [t.1])
  | d + 1, ts => ts.flatMap (fun t => (pathsDown d t.2.transitions).map (fun s => t.1 :: s))

/-- The recursive helper `find_first_after` of
`PhraseSet::contains_prefix_with_range`: the smallest 3-byte path that is
`≥ min_key`, as a vector whose positions `< i` are placeholder zeros that
the callers overwrite.  The source tests `i == 2`; it is only ever called
with `i ∈ {0, 1, 2}`, and the test is written `2 ≤ i` here so that the
recursion is well-founded for the unreachable arguments too. -/
def find_first_after (ts : List (Nat × Node)) (min_key : List Nat)
    (must_skip : Bool) (i : Nat) : Option (List Nat) :=
  if 2 ≤ i then
    match ts with
    | [] => none
    | t :: _ => some [0, 0, t.1]
  else
    match ts with
    | [] => none
    | t :: rest =>
      let next_must_skip := must_skip && (t.1 == min_key.getD i 0)
      let sub := if next_must_skip
        then (t.2).transitions.dropWhile (fun u => u.1 < min_key.getD (i + 1) 0)
        else (t.2).transitions
      match find_first_after sub min_key next_must_skip (i + 1) with
      | some result => some (result.set i t.1)
      | none => find_first_after rest min_key must_skip i
termination_by (2 - i, ts.length)
decreasing_by
· apply Prod.Lex.left
  omega
· apply Prod.Lex.right
  simp

/-! ### Query model

Modelled from the spec: the repository's `phrase/query.rs` (the
`QueryWord` and `QueryPhrase` value types with the derived `has_prefix`
flag, `full_word_key` and `prefix_key_range`) is not under `src/`; the
definitions below follow §3 and §4.F of the specification. -/

inductive QueryWord where
  | Full (id : Nat) (edit_distance : Nat)
  | Prefix (id_range : Nat × Nat)

structure QueryPhrase where
  words : List QueryWord

/-- Modelled from the spec: derived flag, true iff the last element is a
`Prefix`. -/
def QueryPhrase.has_prefix (q : QueryPhrase) : Bool :=
  match q.words.getLast? with
  | some (QueryWord.Prefix _) => true
  | _ => false

/-- Modelled from the spec: the `3k`-byte key of the `Full` words. -/
def QueryPhrase.full_word_key (q : QueryPhrase) : List Nat :=
  (q.words.map (fun w =>
    match w with
    | QueryWord.Full id _ => three_byte_encode id
    | QueryWord.Prefix _ => [])).flatten

/-- Modelled from the spec: the 3-byte encodings of the trailing
`Prefix`'s `(min_id, max_id)`, if any. -/
def QueryPhrase.prefix_key_range (q : QueryPhrase) : Option (List Nat × List Nat) :=
  match q.words.getLast? with
  | some (QueryWord.Prefix r) => some (three_byte_encode r.1, three_byte_encode r.2)
  | _ => none

/-- The ids of the `Full` words of a query phrase. -/
def QueryPhrase.full_ids (q : QueryPhrase) : List Nat :=
  q.words.filterMap (fun w =>
    match w with
    | QueryWord.Full id _ => some id
    | QueryWord.Prefix _ => none)

/-- An all-`Full` query phrase over the given word ids. -/
def mkFullPhrase (ws : List Nat) : QueryPhrase :=
  ⟨ws.map (fun id => QueryWord.Full id 0)⟩

/-- A query phrase of `Full` words followed by a trailing `Prefix` with
the given id range. -/
def mkRangePhrase (ws : List Nat) (mn mx : Nat) : QueryPhrase :=
  ⟨ws.map (fun id => QueryWord.Full id 0) ++ [ QueryWord.Prefix (mn, mx)]⟩

/-! ### PhraseSet query operations (`phrase/mod.rs`) -/

/-- `PhraseSet::contains`: rejects a trailing `Prefix`, otherwise walks
the full key and wraps `fst::Set::contains`. -/
def PhraseSet.contains (t : Node) (phrase : QueryPhrase) : Except String Bool :=
  if QueryPhrase.has_prefix phrase then
    Except.error "The query submitted has a QueryWord::Prefix. Set::contains only accepts QueryWord:Full"
  else
    Except.ok (Node.accepts t (QueryPhrase.full_word_key phrase))

/-- `PhraseSet::contains_prefix_with_range`.  The source unwraps
`prefix_key_range`; the `none` branch (a panic) is unreachable from
`contains_prefix`, which only calls this when `has_prefix` holds. -/
def PhraseSet.contains_prefix_with_range (t : Node) (phrase : QueryPhrase) : Bool :=
  match QueryPhrase.prefix_key_range phrase with
  | none => false
  | some (sought_min_key, sought_max_key) =>
    match partial_search t (QueryPhrase.full_word_key phrase) with
    | none => false
    | some full_word_node =>
      if Node.is_empty full_word_node then false
      else
        match find_first_after
            (full_word_node.transitions.dropWhile (fun u => u.1 < sought_min_key.getD 0 0))
            sought_min_key true 0 with
        | some result => lexLe result sought_max_key
        | none => false

/-- `PhraseSet::contains_prefix`. -/
def PhraseSet.contains_prefix (t : Node) (phrase : QueryPhrase) : Except String Bool :=
  if QueryPhrase.has_prefix phrase then
    Except.ok (PhraseSet.contains_prefix_with_range t phrase)
  else
    match partial_search t (QueryPhrase.full_word_key phrase) with
    | none => Except.ok false
    | some _ => Except.ok true

/-- `PhraseSet::range`: `fst::Set::range().ge(min_key).le(max_key)` is the
ordered key stream restricted to the closed interval; the result reports
whether its first element exists.  `none` models the `.unwrap()` panic on
a phrase with no trailing `Prefix`. -/
def PhraseSet.range (t : Node) (phrase : QueryPhrase) : Option Bool :=
  match QueryPhrase.prefix_key_range phrase with
  | none => none
  | some (last_id_min, last_id_max) =>
    let min_key := QueryPhrase.full_word_key phrase ++ last_id_min
    let max_key := QueryPhrase.full_word_key phrase ++ last_id_max
    match (streamKeys t).filter (fun k => lexLe min_key k && lexLe k max_key) with
    | [] => some false
    | _ :: _ => some true

/-- A concrete phrase set with the two keys `[2,1,0]` and `[4,3,3]`
(single-word phrases), used to instantiate the universally quantified
claim theorems. -/
def exampleSet : Node :=
  Node.node false
    [(2, Node.node false [(1, Node.node false [(0, Node.node true [])])]),
     (4, Node.node false [(3, Node.node false [(3, Node.node true [])])])]

/-! ### FuzzyMap (`fuzzy/map.rs`)

Rust strings are modelled as lists of Unicode scalar values (`List Char`);
the `Ord` instance of `String` (lexicographic on UTF-8 bytes) coincides
with the lexicographic order on scalar values, modelled by `strLt` below.
The external `fst` crate's map is modelled as an association list in key
order together with the builder's strictly-increasing-key check. -/

/-- Lexicographic strict order on strings (scalar-value sequences),
matching Rust's `Ord` for `String`. -/
def strLt : List Char → List Char → Bool
  | _, [] => false
  | [], _ :: _ => true
  | a :: as, b :: bs => a < b || (a = b && strLt as bs)

/-- Lexicographic order on the `(String, usize)` pairs stored in
`word_variants`, matching the derived `Ord` that `Vec::sort` uses. -/
def pairLe (a b : List Char × Nat) : Bool :=
  strLt a.1 b.1 || (a.1 = b.1 && a.2 ≤ b.2)

/-- Itertools `dedup` on the sorted pair list: drop an element equal to
its immediate successor's predecessor (consecutive duplicates). -/
def dedup_adjacent_pairs : List (List Char × Nat) → List (List Char × Nat)
  | [] => []
  | [a] => [a]
  | a :: b :: rest =>
    if a = b then dedup_adjacent_pairs (b :: rest)
    else a :: dedup_adjacent_pairs (b :: rest)

/-- Itertools `group_by(|t| &t.0)`: group consecutive pairs that share a
key, keeping the ids in order. -/
def groupByKey : List (List Char × Nat) → List (List Char × List Nat)
  | [] => []
  | (k, i) :: rest =>
    match groupByKey rest with
    | [] => [(k, [i])]
    | (k2, is) :: gs =>
      if k = k2 then (k, i :: is) :: gs else (k, [i]) :: (k2, is) :: gs

/-- Strictly increasing key sequence: the admissibility condition the
`fst` crate's `Builder::insert` enforces across successive calls. -/
def keysStrict : List (List Char) → Bool
  | [] => true
  | [_] => true
  | a :: b :: rest => strLt a b && keysStrict (b :: rest)

/-- `static BIG_NUMBER: usize = 1 << 30`. -/
def BIG_NUMBER : Nat := 2 ^ 30

/-- Modelled from the spec (§4.A): all strings obtained from `w` by
deleting exactly one Unicode scalar value. -/
def deletions1 : List Char → List (List Char)
  | [] => []
  | c :: rest => rest :: (deletions1 rest).map (fun v => c :: v)

/-- Modelled from the spec (§4.A): all strings obtained by deleting
between 1 and `d` scalar values (the original word is not included). -/
def variants_upto : Nat → List Char → List (List Char)
  | 0, _ => []
  | d + 1, w => deletions1 w ++ (deletions1 w).flatMap (variants_upto d)

/-- Modelled from the spec (§4.A): `fuzzy::get_variants(word, d)`, the
deletion-variant set used both at build and at query time
(`fuzzy/mod.rs` is not part of the sources). -/
def get_variants (word : List Char) (edit_distance : Nat) : List (List Char) :=
  variants_upto edit_distance word

/-- Model of the external `strsim` crate's `damerau_levenshtein`:
edit distance with deletion, insertion, substitution and adjacent
transposition, by the standard recurrence on scalar values. -/
def damerau_levenshtein : List Char → List Char → Nat
  | [], ys => ys.length
  | x :: xs, [] => (x :: xs).length
  | x :: xs, y :: ys =>
    if x = y then damerau_levenshtein xs ys
    else
      let base := 1 + min (damerau_levenshtein xs (y :: ys))
        (min (damerau_levenshtein (x :: xs) ys) (damerau_levenshtein xs ys))
      match xs, ys with
      | x2 :: xs2, y2 :: ys2 =>
        if x = y2 ∧ y = x2 then min base (1 + damerau_levenshtein xs2 ys2)
        else base
      | _, _ => base
termination_by xs ys => xs.length + ys.length
decreasing_by
all_goals simp_arith [List.length]

/-- `FuzzyMap { id_list: Vec<Vec<usize>>, fst: raw::Fst }`; the fst is
modelled as its key/output association list in key order. -/
structure FuzzyMap where
  id_list : List (List Nat)
  fst : List (List Char × Nat)
deriving DecidableEq

/-- `FuzzyMap::get`: the output value for an exact key, `fst.get`. -/
def FuzzyMap.get (m : FuzzyMap) (key : List Char) : Option Nat :=
  (m.fst.find? (fun p => p.1 = key)).map Prod.snd

/-- Itertools `dedup` on the sorted id list inside `lookup`. -/
def dedup_adjacent : List Nat → List Nat
  | [] => []
  | [a] => [a]
  | a :: b :: rest =>
    if a = b then dedup_adjacent (b :: rest) else a :: dedup_adjacent (b :: rest)

/-- Candidate-probing loop of `FuzzyMap::lookup` (`fuzzy/map.rs` lines
77-91): probe each candidate; a direct output is pushed, an output
`>= BIG_NUMBER` indexes the overflow table. `none` models the panic of
the out-of-bounds indexing `id_list[uidx - BIG_NUMBER]`. -/
def lookup_matches (m : FuzzyMap) (cands : List (List Char)) : Option (List Nat) :=
  cands.foldl (fun acc i =>
    match acc with
    | none => none
    | some ms =>
      match m.get i with
      | none => some ms
      | some idx =>
        if idx < BIG_NUMBER then some (ms ++ [idx])
        else
          match m.id_list.get? (idx - BIG_NUMBER) with
          | none => none
          | some xs => some (ms ++ xs)) (some [])

/-- `FuzzyMap::lookup(query, d, lookup_fn)`: probe the query and its
variants, sort and dedup the collected ids, resolve each id to a word
and keep those within true Damerau-Levenshtein distance `d`. `none`
models the overflow-indexing panic; the source otherwise always
returns `Ok`. -/
def FuzzyMap.lookup (m : FuzzyMap) (query : List Char) (edit_distance : Nat)
    (lookup_fn : Nat → List Char) : Option (List (List Char × Nat)) :=
  match lookup_matches m (query :: get_variants query edit_distance) with
  | none => none
  | some ms =>
    some (((dedup_adjacent (ms.insertionSort (· ≤ ·))).map
        (fun id => (lookup_fn id, id))).filter
      (fun p => damerau_levenshtein query p.1 ≤ edit_distance))

/-- `FuzzyMapBuilder::insert(key, id)`: push `(key, id)` and `(v, id)`
for every variant `v` onto `word_variants`. -/
def FuzzyMapBuilder.insert (wv : List (List Char × Nat)) (key : List Char)
    (id : Nat) (edit_distance : Nat) : List (List Char × Nat) :=
  wv ++ ((key, id) :: (get_variants key edit_distance).map (fun v => (v, id)))

/-- `FuzzyMapBuilder::build_from_iter`'s insertion loop: each word is
inserted with its position as id. -/
def word_variants_of (words : List (List Char)) (edit_distance : Nat) :
    List (List Char × Nat) :=
  words.enum.foldl (fun wv p => FuzzyMapBuilder.insert wv p.2 p.1 edit_distance) []

/-- Loop body of `FuzzyMapBuilder::finish`: a single-id group keeps its
id as the FST output; a multi-id group is appended to the overflow
table and the output is `BIG_NUMBER + overflow_index`. -/
def buildStep (acc : List (List Char × Nat) × List (List Nat))
    (g : List Char × List Nat) : List (List Char × Nat) × List (List Nat) :=
  if g.2.length = 1 then (acc.1 ++ [(g.1, g.2.headD 0)], acc.2)
  else (acc.1 ++ [(g.1, acc.2.length + BIG_NUMBER)], acc.2 ++ [g.2])

/-- Stage one of `FuzzyMapBuilder::finish`: `word_variants.sort()`, then
itertools `dedup().group_by(|t| &t.0)` over the sorted pairs. -/
def finishGroups (wv : List (List Char × Nat)) : List (List Char × List Nat) :=
  groupByKey (dedup_adjacent_pairs (wv.insertionSort (fun a b => pairLe a b = true)))

/-- Stage two of `FuzzyMapBuilder::finish`: the fold emitting one FST
pair per group and building the overflow table. -/
def finishBuilt (wv : List (List Char × Nat)) :
    List (List Char × Nat) × List (List Nat) :=
  (finishGroups wv).foldl buildStep ([], [])

/-- `FuzzyMapBuilder::finish`: the `fst` builder errors iff the keys are
not inserted in strictly increasing order (I/O is not modelled); on
success the map holds the overflow table and the FST pairs. -/
def FuzzyMapBuilder.finish (wv : List (List Char × Nat)) : Except String FuzzyMap :=
  if keysStrict ((finishBuilt wv).1.map Prod.fst)
  then Except.ok ⟨(finishBuilt wv).2, (finishBuilt wv).1⟩
  else Except.error "out-of-order key insertion"

/-- `FuzzyMapBuilder::build_from_iter(words, d)`: insert every word with
its position, then finish. -/
def build_from_iter (words : List (List Char)) (edit_distance : Nat) :
    Except String FuzzyMap :=
  FuzzyMapBuilder.finish (word_variants_of words edit_distance)

/-! ### Basic lemmas about the lexicographic order and the codec -/

theorem lexLt_nil_nil : lexLt [] [] = false := rfl

theorem lexLt_nil_iff (l : List Nat) : lexLt [] l = true ↔ l ≠ [] := by
  cases l <;> simp [lexLt]

theorem lexLt_cons_nil (a : Nat) (as : List Nat) : lexLt (a :: as) [] = false := rfl

theorem lexLt_cons_iff (a b : Nat) (as bs : List Nat) :
    lexLt (a :: as) (b :: bs) = true ↔ a < b ∨ (a = b ∧ lexLt as bs = true) := by
  simp [lexLt]

theorem lexLt_irrefl (l : List Nat) : lexLt l l = false := by
  induction l with
  | nil => rfl
  | cons a as ih => simp [lexLt, ih]

theorem lexLt_trans : ∀ {x y z : List Nat},
    lexLt x y = true → lexLt y z = true → lexLt x z = true
  | [], _, _ :: _, _, _ => rfl
  | [], _ :: _, [], _, h2 => by simp [lexLt] at h2
  | [], [], _, h1, _ => by simp [lexLt] at h1
  | _ :: _, [], _, h1, _ => by simp [lexLt] at h1
  | _ :: _, _ :: _, [], _, h2 => by simp [lexLt] at h2
  | a :: as, b :: bs, c :: cs, h1, h2 => by
    rw [lexLt_cons_iff] at h1 h2 ⊢
    rcases h1 with h1 | ⟨rfl, h1⟩ <;> rcases h2 with h2 | ⟨rfl, h2⟩
    · exact Or.inl (Nat.lt_trans h1 h2)
    · exact Or.inl h1
    · exact Or.inl h2
    · exact Or.inr ⟨rfl, lexLt_trans h1 h2⟩

theorem lexLt_asymm {x y : List Nat} (h : lexLt x y = true) : lexLt y x = false := by
  by_contra hc
  rw [Bool.not_eq_false] at hc
  have := lexLt_trans h hc
  rw [lexLt_irrefl] at this
  exact absurd this (by simp)

theorem lexLt_total (x y : List Nat) :
    lexLt x y = true ∨ x = y ∨ lexLt y x = true := by
  induction x generalizing y with
  | nil => cases y <;> simp [lexLt]
  | cons a as ih =>
    cases y with
    | nil => simp [lexLt]
    | cons b bs =>
      rcases Nat.lt_trichotomy a b with h | h | h
      · exact Or.inl (by rw [lexLt_cons_iff]; exact Or.inl h)
      · subst h
        rcases ih bs with h' | h' | h'
        · exact Or.inl (by rw [lexLt_cons_iff]; exact Or.inr ⟨rfl, h'⟩)
        · exact Or.inr (Or.inl (by rw [h']))
        · exact Or.inr (Or.inr (by rw [lexLt_cons_iff]; exact Or.inr ⟨rfl, h'⟩))
      · exact Or.inr (Or.inr (by rw [lexLt_cons_iff]; exact Or.inl h))

theorem lexLe_iff (x y : List Nat) : lexLe x y = true ↔ lexLt x y = true ∨ x = y := by
  simp [lexLe]

theorem lexLe_refl (x : List Nat) : lexLe x x = true := by
  rw [lexLe_iff]; exact Or.inr rfl

theorem lexLe_trans {x y z : List Nat} (h1 : lexLe x y = true) (h2 : lexLe y z = true) :
    lexLe x z = true := by
  rw [lexLe_iff] at h1 h2 ⊢
  rcases h1 with h1 | rfl <;> rcases h2 with h2 | rfl
  · exact Or.inl (lexLt_trans h1 h2)
  · exact Or.inl h1
  · exact Or.inl h2
  · exact Or.inr rfl

theorem lexLt_append_same_length : ∀ (x y u v : List Nat), x.length = y.length →
    (lexLt (x ++ u) (y ++ v) = true ↔ lexLt x y = true ∨ (x = y ∧ lexLt u v = true))
  | [], [], u, v, _ => by simp [lexLt]
  | [], _ :: _, _, _, h => by simp at h
  | _ :: _, [], _, _, h => by simp at h
  | a :: as, b :: bs, u, v, h => by
    simp only [List.length_cons, Nat.succ.injEq] at h
    simp only [List.cons_append, lexLt_cons_iff, lexLt_append_same_length as bs u v h,
      List.cons.injEq]
    constructor
    · rintro (h' | ⟨rfl, h' | ⟨rfl, h'⟩⟩)
      · exact Or.inl (Or.inl h')
      · exact Or.inl (Or.inr ⟨rfl, h'⟩)
      · exact Or.inr ⟨⟨rfl, rfl⟩, h'⟩
    · rintro ((h' | ⟨rfl, h'⟩) | ⟨⟨rfl, rfl⟩, h'⟩)
      · exact Or.inl h'
      · exact Or.inr ⟨rfl, Or.inl h'⟩
      · exact Or.inr ⟨rfl, Or.inr ⟨rfl, h'⟩⟩

theorem three_byte_encode_eq (n : Nat) :
    three_byte_encode n = [n / 65536 % 256, n / 256 % 256, n % 256] := rfl

theorem three_byte_encode_length (n : Nat) : (three_byte_encode n).length = 3 := rfl

theorem three_byte_decode_encode (id : Nat) (h : id < 2 ^ 24) :
    three_byte_decode (three_byte_encode id) = id := by
  simp only [three_byte_encode_eq, three_byte_decode, List.replicate, List.cons_append,
    List.nil_append, List.take, List.foldl]
  omega

theorem three_byte_encode_lt {id1 id2 : Nat} (h12 : id1 < id2) (h2 : id2 < 2 ^ 24) :
    lexLt (three_byte_encode id1) (three_byte_encode id2) = true := by
  simp only [three_byte_encode_eq, lexLt_cons_iff]
  omega

theorem three_byte_encode_inj {id1 id2 : Nat} (h1 : id1 < 2 ^ 24) (h2 : id2 < 2 ^ 24)
    (h : three_byte_encode id1 = three_byte_encode id2) : id1 = id2 := by
  have := three_byte_decode_encode id1 h1
  rw [h, three_byte_decode_encode id2 h2] at this
  exact this.symm

theorem phrase_to_key_nil : phrase_to_key [] = [] := rfl

theorem phrase_to_key_cons (a : Nat) (p : List Nat) :
    phrase_to_key (a :: p) = three_byte_encode a ++ phrase_to_key p := by
  simp [phrase_to_key]

theorem phrase_to_key_length (p : List Nat) : (phrase_to_key p).length = 3 * p.length := by
  induction p with
  | nil => rfl
  | cons a as ih =>
    rw [phrase_to_key_cons, List.length_append, ih, three_byte_encode_length,
      List.length_cons]
    omega

/-- C7 helper: key comparison agrees with id-sequence comparison. -/
theorem phrase_to_key_lexLt (p1 p2 : List Nat) (h1 : ∀ i ∈ p1, i < 2 ^ 24)
    (h2 : ∀ i ∈ p2, i < 2 ^ 24) :
    lexLt (phrase_to_key p1) (phrase_to_key p2) = true ↔ lexLt p1 p2 = true := by
  induction p1 generalizing p2 with
  | nil =>
    cases p2 with
    | nil => simp [phrase_to_key_nil]
    | cons b bs =>
      rw [phrase_to_key_nil, phrase_to_key_cons, three_byte_encode_eq]
      simp [lexLt_nil_iff]
  | cons a as ih =>
    cases p2 with
    | nil =>
      rw [phrase_to_key_nil, phrase_to_key_cons, three_byte_encode_eq]
      simp [lexLt_cons_nil, lexLt]
    | cons b bs =>
      rw [phrase_to_key_cons, phrase_to_key_cons,
        lexLt_append_same_length _ _ _ _ (by rw [three_byte_encode_length, three_byte_encode_length]),
        lexLt_cons_iff]
      have ha : a < 2 ^ 24 := h1 a (by simp)
      have hb : b < 2 ^ 24 := h2 b (by simp)
      have ihr := ih bs (fun i hi => h1 i (List.mem_cons_of_mem _ hi))
        (fun i hi => h2 i (List.mem_cons_of_mem _ hi))
      constructor
      · rintro (h' | ⟨he, h'⟩)
        · rcases Nat.lt_trichotomy a b with hab | rfl | hab
          · exact Or.inl hab
          · rw [lexLt_irrefl] at h'; exact absurd h' (by simp)
          · rw [lexLt_asymm (three_byte_encode_lt hab ha)] at h'
            exact absurd h' (by simp)
        · exact Or.inr ⟨three_byte_encode_inj ha hb he, ihr.mp h'⟩
      · rintro (h' | ⟨rfl, h'⟩)
        · exact Or.inl (three_byte_encode_lt h' hb)
        · exact Or.inr ⟨rfl, ihr.mpr h'⟩

/-! ### Lemmas about `key_to_phrase` -/

theorem ktp_go_stop (key : List Nat) {bound i : Nat} (h : ¬ i < bound) :
    ktp_go key bound i = some [] := by
  rw [ktp_go]; simp [h]

theorem ktp_go_step (key : List Nat) {bound i : Nat} (h : i < bound) :
    ktp_go key bound i =
      match subslice3 key i with
      | none => none
      | some w => (ktp_go key bound (i + 3)).map (fun rest => three_byte_decode w :: rest) := by
  rw [ktp_go]; simp [h]

theorem subslice3_shift (x y z : Nat) (k2 : List Nat) (i : Nat) :
    subslice3 (x :: y :: z :: k2) (i + 3) = subslice3 k2 i := by
  have hd : (x :: y :: z :: k2).drop (i + 3) = k2.drop i := by
    have h3 : List.drop 3 (x :: y :: z :: k2) = k2 := rfl
    rw [Nat.add_comm i 3, ← List.drop_drop, h3]
  simp only [subslice3, hd, List.length_cons]
  by_cases h : i + 3 ≤ k2.length
  · rw [if_pos (by omega), if_pos h]
  · rw [if_neg (by omega), if_neg h]

theorem ktp_go_shift (x y z : Nat) (k2 : List Nat) :
    ∀ (n b i : Nat), b - i ≤ n →
      ktp_go (x :: y :: z :: k2) (b + 3) (i + 3) = ktp_go k2 b i := by
  intro n
  induction n with
  | zero =>
    intro b i h
    rw [ktp_go_stop _ (by omega), ktp_go_stop _ (by omega)]
  | succ n ih =>
    intro b i h
    by_cases hib : i < b
    · rw [ktp_go_step _ (by omega : i + 3 < b + 3), ktp_go_step _ hib, subslice3_shift]
      cases subslice3 k2 i with
      | none => rfl
      | some w =>
        have : i + 3 + 3 = (i + 3) + 3 := rfl
        rw [ih b (i + 3) (by omega)]
    · rw [ktp_go_stop _ (by omega), ktp_go_stop _ (by omega)]

theorem subslice3_prefix (d0 d1 d2 : Nat) (l : List Nat) :
    subslice3 (d0 :: d1 :: d2 :: l) 0 = some [d0, d1, d2] := by
  simp only [subslice3, List.length_cons, List.drop_zero]
  rw [if_pos (by omega)]
  rfl

/-- C10 helper: the round trip on non-empty phrases of in-range ids. -/
theorem key_to_phrase_round_trip : ∀ (p : List Nat), p ≠ [] → (∀ i ∈ p, i < 2 ^ 24) →
    key_to_phrase (phrase_to_key p) = some p
  | [], h, _ => absurd rfl h
  | [a], _, hlt => by
    have ha : a < 2 ^ 24 := hlt a (by simp)
    rw [phrase_to_key_cons, phrase_to_key_nil, List.append_nil, three_byte_encode_eq]
    rw [key_to_phrase]
    have hb : usize_sub ([a / 65536 % 256, a / 256 % 256, a % 256] : List Nat).length 2 = 1 := by
      simp only [usize_sub, List.length_cons, List.length_nil]
      rw [if_pos (by omega)]
    rw [hb, ktp_go_step _ (by omega), subslice3_prefix, ktp_go_stop _ (by omega)]
    simp [← three_byte_encode_eq, three_byte_decode_encode a ha]
  | a :: b :: rest, _, hlt => by
    have ha : a < 2 ^ 24 := hlt a (by simp)
    have hlen : (phrase_to_key (b :: rest)).length = 3 * (b :: rest).length := phrase_to_key_length _
    have hlen3 : 3 ≤ (phrase_to_key (b :: rest)).length := by
      rw [hlen, List.length_cons]; omega
    rw [phrase_to_key_cons, key_to_phrase]
    have hb : usize_sub (three_byte_encode a ++ phrase_to_key (b :: rest)).length 2
        = ((phrase_to_key (b :: rest)).length - 2) + 3 := by
      rw [List.length_append, three_byte_encode_length]
      simp only [usize_sub]
      rw [if_pos (by omega)]
      omega
    rw [hb]
    rw [three_byte_encode_eq]
    simp only [List.cons_append, List.nil_append]
    rw [ktp_go_step _ (by omega), subslice3_prefix]
    rw [ktp_go_shift _ _ _ _ ((phrase_to_key (b :: rest)).length - 2) _ 0 (by omega)]
    have ihr := key_to_phrase_round_trip (b :: rest) (by simp)
      (fun i hi => hlt i (by simp at hi ⊢; tauto))
    rw [key_to_phrase] at ihr
    have hb2 : usize_sub (phrase_to_key (b :: rest)).length 2
        = (phrase_to_key (b :: rest)).length - 2 := by
      simp only [usize_sub]
      rw [if_pos (by omega)]
    rw [hb2] at ihr
    rw [ihr]
    simp [← three_byte_encode_eq, three_byte_decode_encode a ha]

/-! ### Claim theorems for the codec -/

/-- C8: the three-byte codec round-trips: for every id below `2^24`,
`three_byte_decode (three_byte_encode id) = id`. -/
theorem codec_round_trip (id : Nat) (h : id < 2 ^ 24) :
    three_byte_decode (three_byte_encode id) = id :=
  three_byte_decode_encode id h

/-- Witness for C8 at a concrete input. -/
theorem codec_round_trip_witness :
    (561528 : Nat) < 2 ^ 24 ∧ three_byte_decode (three_byte_encode 561528) = 561528 :=
  ⟨by decide, codec_round_trip 561528 (by decide)⟩

/-- C7: the codec preserves order: ids below `2^24` compare the same as
their 3-byte encodings, and id-sequences compare the same as their
concatenated keys, lexicographically. -/
theorem codec_order_preserving :
    (∀ id1 id2 : Nat, id1 < id2 → id2 < 2 ^ 24 →
      lexLt (three_byte_encode id1) (three_byte_encode id2) = true) ∧
    (∀ p1 p2 : List Nat, (∀ i ∈ p1, i < 2 ^ 24) → (∀ i ∈ p2, i < 2 ^ 24) →
      (lexLt (phrase_to_key p1) (phrase_to_key p2) = true ↔ lexLt p1 p2 = true)) :=
  ⟨fun _ _ h12 h2 => three_byte_encode_lt h12 h2,
   fun p1 p2 h1 h2 => phrase_to_key_lexLt p1 p2 h1 h2⟩

/-- Witness for C7 at concrete inputs. -/
theorem codec_order_preserving_witness :
    lexLt (three_byte_encode 61528) (three_byte_encode 561528) = true ∧
    (lexLt (phrase_to_key [1, 61528]) (phrase_to_key [1, 561528]) = true ↔
      lexLt [1, 61528] [1, 561528] = true) :=
  ⟨codec_order_preserving.1 61528 561528 (by decide) (by decide),
   codec_order_preserving.2 [1, 61528] [1, 561528] (by decide) (by decide)⟩

/-- C10: `key_to_phrase` inverts `phrase_to_key` on non-empty phrases of
in-range ids, but panics (modelled as `none`) on keys of length 0 or 1,
because the loop bound `key.len() - 2` underflows; in particular the round
trip fails for the empty phrase. -/
theorem key_to_phrase_partial :
    (∀ p : List Nat, p ≠ [] → (∀ i ∈ p, i < 2 ^ 24) →
      key_to_phrase (phrase_to_key p) = some p) ∧
    key_to_phrase [] = none ∧
    (∀ b : Nat, key_to_phrase [b] = none) ∧
    key_to_phrase (phrase_to_key []) ≠ some [] := by
  have hnil : key_to_phrase [] = none := by
    have hb : usize_sub (List.length ([] : List Nat)) 2 = 2 ^ 64 - 2 := by
      rw [usize_sub, List.length_nil, if_neg (by omega)]
      omega
    rw [key_to_phrase, hb, ktp_go_step _ (by omega)]
    rfl
  refine ⟨key_to_phrase_round_trip, hnil, ?_, ?_⟩
  · intro b
    have hs : subslice3 [b] 0 = none := by
      rw [subslice3, if_neg (by simp)]
    have hb : usize_sub (List.length [b]) 2 = 2 ^ 64 - 1 := by
      rw [usize_sub, List.length_cons, List.length_nil, if_neg (by omega)]
      omega
    rw [key_to_phrase, hb, ktp_go_step _ (by omega), hs]
  · rw [phrase_to_key_nil, hnil]
    simp

/-- Witness for C10 at concrete inputs. -/
theorem key_to_phrase_partial_witness :
    key_to_phrase (phrase_to_key [61528, 1]) = some [61528, 1] ∧ key_to_phrase [7] = none :=
  ⟨ key_to_phrase_partial.1 [61528, 1] (by simp) (by decide),
   key_to_phrase_partial.2.2.1 7⟩

/-! ### Basic lemmas about the automaton model -/

theorem sortedStrict_tail {a : Nat} {l : List Nat} (h : sortedStrict (a :: l) = true) :
    sortedStrict l = true := by
  cases l with
  | nil => rfl
  | cons b rest =>
    rw [sortedStrict] at h
    exact (Bool.and_eq_true_iff.mp h).2

theorem sortedStrict_head_lt {a : Nat} {l : List Nat} (h : sortedStrict (a :: l) = true) :
    ∀ x ∈ l, a < x := by
  induction l generalizing a with
  | nil => intro x hx; simp at hx
  | cons b rest ih =>
    intro x hx
    rw [sortedStrict, Bool.and_eq_true_iff] at h
    rcases List.mem_cons.mp hx with rfl | hx'
    · exact of_decide_eq_true h.1
    · exact Nat.lt_trans (of_decide_eq_true h.1) (ih h.2 x hx')

theorem find_byte_unique : ∀ (ts : List (Nat × Node)) (b : Nat) (c : Node),
    sortedStrict (ts.map Prod.fst) = true → (b, c) ∈ ts →
    ts.find? (fun t => t.1 == b) = some (b, c) := by
  intro ts
  induction ts with
  | nil => intro b c _ hm; simp at hm
  | cons t rest ih =>
    intro b c hs hm
    obtain ⟨a, d⟩ := t
    rcases List.mem_cons.mp hm with he | hm'
    · cases he
      simp [List.find?]
    · have hab : a < b := by
        have := sortedStrict_head_lt (by simpa using hs) b
        exact this (by simpa using List.mem_map_of_mem Prod.fst hm')
      have hne : (a == b) = false := by
        simp; omega
      rw [List.find?, hne]
      exact ih b c (sortedStrict_tail (by simpa using hs)) hm'

theorem wfList_mem : ∀ (ts : List (Nat × Node)) (b : Nat) (c : Node),
    wfList ts = true → (b, c) ∈ ts → Node.wf c = true := by
  intro ts
  induction ts with
  | nil => intro b c _ hm; simp at hm
  | cons t rest ih =>
    intro b c hw hm
    obtain ⟨a, d⟩ := t
    rw [wfList, Bool.and_eq_true_iff] at hw
    rcases List.mem_cons.mp hm with he | hm'
    · cases he; exact hw.1
    · exact ih b c hw.2 hm'

theorem wf_sorted {n : Node} (h : Node.wf n = true) :
    sortedStrict (n.transitions.map Prod.fst) = true := by
  obtain ⟨f, ts⟩ := n
  rw [Node.wf, Bool.and_eq_true_iff, Bool.and_eq_true_iff] at h
  exact h.1.1

theorem wf_wfList {n : Node} (h : Node.wf n = true) : wfList n.transitions = true := by
  obtain ⟨f, ts⟩ := n
  rw [Node.wf, Bool.and_eq_true_iff] at h
  exact h.2

theorem wf_final_or_ne {n : Node} (h : Node.wf n = true) :
    Node.is_final n = true ∨ n.transitions ≠ [] := by
  obtain ⟨f, ts⟩ := n
  rw [Node.wf, Bool.and_eq_true_iff, Bool.and_eq_true_iff] at h
  have := h.1.2
  rcases Bool.or_eq_true_iff.mp this with hf | hne
  · exact Or.inl hf
  · right
    intro he
    simp only [Node.transitions] at he
    rw [he] at hne
    simp at hne

theorem wf_child {n : Node} (h : Node.wf n = true) {b : Nat} {c : Node}
    (hm : (b, c) ∈ n.transitions) : Node.wf c = true :=
  wfList_mem n.transitions b c (wf_wfList h) hm

theorem find_input_eq {n : Node} (h : Node.wf n = true) {b : Nat} {c : Node}
    (hm : (b, c) ∈ n.transitions) : Node.find_input n b = some c := by
  rw [Node.find_input, find_byte_unique n.transitions b c (wf_sorted h) hm]

theorem find_input_some {n : Node} {b : Nat} {c : Node}
    (h : Node.find_input n b = some c) : (b, c) ∈ n.transitions := by
  rw [Node.find_input] at h
  cases hf : n.transitions.find? (fun t => t.1 == b) with
  | none => rw [hf] at h; simp at h
  | some t =>
    rw [hf] at h
    obtain ⟨b', c'⟩ := t
    have hmem := List.mem_of_find?_eq_some hf
    have hp := List.find?_some hf
    simp at hp h
    cases hp
    cases h
    exact hmem

theorem partial_search_append (n : Node) (a b : List Nat) :
    partial_search n (a ++ b) = (partial_search n a).bind (fun m => partial_search m b) := by
  induction a generalizing n with
  | nil => simp [partial_search]
  | cons x xs ih =>
    rw [List.cons_append, partial_search, partial_search]
    cases n.find_input x with
    | none => rfl
    | some m => exact ih m

theorem partial_search_wf : ∀ (k : List Nat) {n m : Node}, Node.wf n = true →
    partial_search n k = some m → Node.wf m = true := by
  intro k
  induction k with
  | nil =>
    intro n m hn hp
    rw [partial_search] at hp
    cases hp
    exact hn
  | cons b bs ih =>
    intro n m hn hp
    rw [partial_search] at hp
    cases hf : n.find_input b with
    | none => rw [hf] at hp; exact absurd hp (by simp)
    | some c =>
      rw [hf] at hp
      exact ih (wf_child hn (find_input_some hf)) hp

theorem exists_accepts : ∀ (n : Node), Node.wf n = true → ∃ k, Node.accepts n k = true
  | .node true ts, _ => ⟨[], by rw [Node.accepts, partial_search]; rfl⟩
  | .node false [], h => by rw [Node.wf] at h; simp [wfList] at h
  | .node false ((b, c) :: rest), h => by
    have hmm : (b, c) ∈ (Node.node false ((b, c) :: rest)).transitions := by
      rw [Node.transitions]
      exact List.mem_cons_self _ _
    have hc : Node.wf c = true := wf_child h hmm
    obtain ⟨k, hk⟩ := exists_accepts c hc
    refine ⟨b :: k, ?_⟩
    have hfi : Node.find_input (Node.node false ((b, c) :: rest)) b = some c := by
      simp [Node.find_input, Node.transitions, List.find?]
    rw [Node.accepts] at hk ⊢
    rw [partial_search, hfi]
    exact hk

theorem mem_streamKeysList (ts : List (Nat × Node)) (x : List Nat) :
    x ∈ streamKeysList ts ↔
      ∃ b c, (b, c) ∈ ts ∧ ∃ k, k ∈ streamKeys c ∧ x = b :: k := by
  induction ts with
  | nil => simp [streamKeysList]
  | cons t rest ih =>
    obtain ⟨b, c⟩ := t
    rw [streamKeysList, List.mem_append, ih]
    simp only [List.mem_map, List.mem_cons]
    constructor
    · rintro (⟨k, hk, rfl⟩ | ⟨b', c', hm, k, hk, rfl⟩)
      · exact ⟨b, c, Or.inl rfl, k, hk, rfl⟩
      · exact ⟨b', c', Or.inr hm, k, hk, rfl⟩
    · rintro ⟨b', c', he | hm, k, hk, rfl⟩
      · cases he
        exact Or.inl ⟨k, hk, rfl⟩
      · exact Or.inr ⟨b', c', hm, k, hk, rfl⟩

theorem nil_mem_streamKeys (n : Node) :
    [] ∈ streamKeys n ↔ Node.is_final n = true := by
  obtain ⟨f, ts⟩ := n
  rw [streamKeys, List.mem_append, mem_streamKeysList, Node.is_final]
  constructor
  · rintro (hm | ⟨b, c, _, k, _, hk⟩)
    · cases f with
      | true => rfl
      | false => simp at hm
    · simp at hk
  · intro hf
    rw [hf]
    exact Or.inl (by simp)

theorem cons_mem_streamKeys (n : Node) (b : Nat) (bs : List Nat) :
    b :: bs ∈ streamKeys n ↔ ∃ c, (b, c) ∈ n.transitions ∧ bs ∈ streamKeys c := by
  obtain ⟨f, ts⟩ := n
  rw [streamKeys, List.mem_append, mem_streamKeysList, Node.transitions]
  constructor
  · rintro (hm | ⟨b', c, hmem, k, hk, he⟩)
    · cases f <;> simp at hm
    · rw [List.cons.injEq] at he
      obtain ⟨rfl, rfl⟩ := he
      exact ⟨c, hmem, hk⟩
  · rintro ⟨c, hmem, hk⟩
    exact Or.inr ⟨b, c, hmem, bs, hk, rfl⟩

theorem mem_streamKeys_iff : ∀ (k : List Nat) (n : Node), Node.wf n = true →
    (k ∈ streamKeys n ↔ Node.accepts n k = true) := by
  intro k
  induction k with
  | nil =>
    intro n hn
    rw [nil_mem_streamKeys, Node.accepts, partial_search]
  | cons b bs ih =>
    intro n hn
    rw [cons_mem_streamKeys, Node.accepts, partial_search]
    constructor
    · rintro ⟨c, hmem, hk⟩
      rw [find_input_eq hn hmem]
      exact (ih c (wf_child hn hmem)).mp hk
    · intro h
      cases hf : n.find_input b with
      | none => rw [hf] at h; simp at h
      | some c =>
        rw [hf] at h
        have hmem := find_input_some hf
        exact ⟨c, hmem, (ih c (wf_child hn hmem)).mpr h⟩

/-! ### Query phrase lemmas -/

theorem full_word_key_eq (q : QueryPhrase) :
    QueryPhrase.full_word_key q = phrase_to_key (QueryPhrase.full_ids q) := by
  obtain ⟨ws⟩ := q
  induction ws with
  | nil => rfl
  | cons w rest ih =>
    cases w with
    | Full id d =>
      rw [show QueryPhrase.full_word_key ⟨QueryWord.Full id d :: rest⟩
          = three_byte_encode id ++ QueryPhrase.full_word_key ⟨rest⟩ by
        simp [QueryPhrase.full_word_key]]
      rw [show QueryPhrase.full_ids ⟨QueryWord.Full id d :: rest⟩
          = id :: QueryPhrase.full_ids ⟨rest⟩ by
        simp [QueryPhrase.full_ids]]
      rw [phrase_to_key_cons, ih]
    | Prefix r =>
      rw [show QueryPhrase.full_word_key ⟨QueryWord.Prefix r :: rest⟩
          = QueryPhrase.full_word_key ⟨rest⟩ by
        simp [QueryPhrase.full_word_key]]
      rw [show QueryPhrase.full_ids ⟨QueryWord.Prefix r :: rest⟩
          = QueryPhrase.full_ids ⟨rest⟩ by
        simp [QueryPhrase.full_ids]]
      exact ih

theorem mkFullPhrase_ids (ws : List Nat) : QueryPhrase.full_ids (mkFullPhrase ws) = ws := by
  induction ws with
  | nil => rfl
  | cons a rest ih =>
    rw [show QueryPhrase.full_ids (mkFullPhrase (a :: rest))
        = a :: QueryPhrase.full_ids (mkFullPhrase rest) by
      simp [mkFullPhrase, QueryPhrase.full_ids]]
    rw [ih]

theorem mkFullPhrase_flag (ws : List Nat) :
    QueryPhrase.has_prefix (mkFullPhrase ws) = false := by
  rw [QueryPhrase.has_prefix]
  cases hl : (mkFullPhrase ws).words.getLast? with
  | none => rfl
  | some w =>
    have hmem : w ∈ (mkFullPhrase ws).words.getLast? := by rw [Option.mem_def, hl]
    obtain ⟨hne, he⟩ := List.mem_getLast?_eq_getLast hmem
    have hw := List.getLast_mem hne
    rw [← he] at hw
    simp only [mkFullPhrase, List.mem_map] at hw
    obtain ⟨id, _, hid⟩ := hw
    rw [← hid]

theorem mkRangePhrase_flag (ws : List Nat) (mn mx : Nat) :
    QueryPhrase.has_prefix (mkRangePhrase ws mn mx) = true := by
  rw [QueryPhrase.has_prefix]
  have hl : (mkRangePhrase ws mn mx).words.getLast? = some (QueryWord.Prefix (mn, mx)) := by
    rw [mkRangePhrase]
    exact List.getLast?_concat _
  rw [hl]

theorem mkRangePhrase_pkr (ws : List Nat) (mn mx : Nat) :
    QueryPhrase.prefix_key_range (mkRangePhrase ws mn mx)
      = some (three_byte_encode mn, three_byte_encode mx) := by
  rw [QueryPhrase.prefix_key_range]
  have hl : (mkRangePhrase ws mn mx).words.getLast? = some (QueryWord.Prefix (mn, mx)) := by
    rw [mkRangePhrase]
    exact List.getLast?_concat _
  rw [hl]

theorem mkRangePhrase_fwk (ws : List Nat) (mn mx : Nat) :
    QueryPhrase.full_word_key (mkRangePhrase ws mn mx) = phrase_to_key ws := by
  induction ws with
  | nil => rfl
  | cons a rest ih =>
    rw [show QueryPhrase.full_word_key (mkRangePhrase (a :: rest) mn mx)
        = three_byte_encode a ++ QueryPhrase.full_word_key (mkRangePhrase rest mn mx) by
      simp [mkRangePhrase, QueryPhrase.full_word_key]]
    rw [ih, phrase_to_key_cons]

/-! ### Claim C3: `PhraseSet::contains` -/

/-- C3: `PhraseSet::contains` returns an error iff the query has a
trailing `Prefix`; on an all-`Full` query it returns `Ok(true)` iff the
3k-byte key of the query's word-id sequence is a key of the set. -/
theorem contains_ok_iff (t : Node) (hwf : Node.wf t = true) (q : QueryPhrase) :
    ((∃ e, PhraseSet.contains t q = Except.error e) ↔ QueryPhrase.has_prefix q = true) ∧
    ( QueryPhrase.has_prefix q = false →
      (PhraseSet.contains t q = Except.ok true ↔
        phrase_to_key (QueryPhrase.full_ids q) ∈ streamKeys t)) := by
  constructor
  · constructor
    · rintro ⟨e, he⟩
      by_contra hq
      rw [Bool.not_eq_true] at hq
      simp [PhraseSet.contains, hq] at he
    · intro hq
      refine ⟨"The query submitted has a QueryWord::Prefix. Set::contains only accepts QueryWord:Full", ?_⟩
      simp [PhraseSet.contains, hq]
  · intro hq
    rw [PhraseSet.contains, if_neg (by simp [hq])]
    rw [full_word_key_eq]
    constructor
    · intro h
      simp only [Except.ok.injEq] at h
      exact (mem_streamKeys_iff _ t hwf).mpr h
    · intro h
      rw [(mem_streamKeys_iff _ t hwf).mp h]

/-- Witness for C3: the example set accepts the single-word phrase
`[131328]` (whose key is `[2,1,0]`). -/
theorem contains_ok_iff_witness :
    Node.wf exampleSet = true ∧
    (PhraseSet.contains exampleSet (mkFullPhrase [131328]) = Except.ok true ↔
      phrase_to_key (QueryPhrase.full_ids (mkFullPhrase [131328])) ∈ streamKeys exampleSet) :=
  ⟨by decide, (contains_ok_iff exampleSet (by decide) (mkFullPhrase [131328])).2 (by decide)⟩

/-! ### Claim C6: `PhraseSet::range` -/

/-- C6: `PhraseSet::range` on a phrase with a trailing `Prefix` reports
whether at least one key of the set lies in the closed lexicographic
interval between the full-word key extended by the encodings of the two
range bounds. -/
theorem range_ok_iff (t : Node) (hwf : Node.wf t = true) (ws : List Nat) (mn mx : Nat) :
    PhraseSet.range t (mkRangePhrase ws mn mx) = some true ↔
    ∃ key, Node.accepts t key = true ∧
      lexLe (phrase_to_key ws ++ three_byte_encode mn) key = true ∧
      lexLe key (phrase_to_key ws ++ three_byte_encode mx) = true := by
  simp only [PhraseSet.range, mkRangePhrase_pkr, mkRangePhrase_fwk]
  cases hl : (streamKeys t).filter (fun k =>
      lexLe (phrase_to_key ws ++ three_byte_encode mn) k &&
      lexLe k (phrase_to_key ws ++ three_byte_encode mx)) with
  | nil =>
    simp only [hl]
    constructor
    · intro h
      simp at h
    · rintro ⟨key, hacc, hmn, hmx⟩
      have hmem : key ∈ (streamKeys t).filter (fun k =>
          lexLe (phrase_to_key ws ++ three_byte_encode mn) k &&
          lexLe k (phrase_to_key ws ++ three_byte_encode mx)) := by
        rw [List.mem_filter]
        exact ⟨(mem_streamKeys_iff _ t hwf).mpr hacc, by rw [hmn, hmx]; rfl⟩
      rw [hl] at hmem
      simp at hmem
  | cons k rest =>
    simp only [hl]
    constructor
    · intro _
      have hmem : k ∈ (streamKeys t).filter (fun k =>
          lexLe (phrase_to_key ws ++ three_byte_encode mn) k &&
          lexLe k (phrase_to_key ws ++ three_byte_encode mx)) := by
        rw [hl]
        exact List.mem_cons_self _ _
      rw [List.mem_filter, Bool.and_eq_true_iff] at hmem
      exact ⟨k, (mem_streamKeys_iff _ t hwf).mp hmem.1, hmem.2.1, hmem.2.2⟩
    · intro _
      trivial

/-- Witness for C6: the range `[[2,1,0], [4,0,0]]` of the example set is
inhabited by the key `[2,1,0]`. -/
theorem range_ok_iff_witness :
    Node.wf exampleSet = true ∧
    (PhraseSet.range exampleSet (mkRangePhrase [] 131328 262144) = some true ↔
      ∃ key, Node.accepts exampleSet key = true ∧
        lexLe (phrase_to_key [] ++ three_byte_encode 131328) key = true ∧
        lexLe key (phrase_to_key [] ++ three_byte_encode 262144) = true) :=
  ⟨by decide, range_ok_iff exampleSet (by decide) [] 131328 262144⟩

/-! ### List utilities for the range-walk proof -/

theorem head?_dropWhile_eq (p : Nat × Node → Bool) :
    ∀ (l : List (Nat × Node)), (l.dropWhile p).head? = l.find? (fun a => !(p a)) := by
  intro l
  induction l with
  | nil => rfl
  | cons a rest ih =>
    cases hp : p a with
    | true =>
      rw [List.dropWhile_cons_of_pos (by rw [hp]),
        List.find?_cons_of_neg _ (by simp [hp]), ih]
    | false =>
      rw [List.dropWhile_cons_of_neg (by simp [hp]),
        List.find?_cons_of_pos _ (by simp [hp]), List.head?_cons]

theorem find?_congr_pred {α : Type} (p q : α → Bool) :
    ∀ (l : List α), (∀ a ∈ l, p a = q a) → l.find? p = l.find? q := by
  intro l
  induction l with
  | nil => intro _; rfl
  | cons a rest ih =>
    intro h
    cases hq : q a with
    | true =>
      rw [List.find?_cons_of_pos _ (by rw [h a (by simp), hq]),
        List.find?_cons_of_pos _ (by rw [hq])]
    | false =>
      rw [List.find?_cons_of_neg _ (by simp [h a (by simp), hq]),
        List.find?_cons_of_neg _ (by simp [hq])]
      exact ih (fun x hx => h x (by simp [hx]))

theorem find?_of_map {α β : Type} (f : α → β) (q : β → Bool) (l : List α) :
    (l.map f).find? q = (l.find? (fun a => q (f a))).map f := by
  rw [List.find?_map]
  rfl

theorem find?_append_left_none {α : Type} {p : α → Bool} {l1 : List α} (l2 : List α)
    (h : l1.find? p = none) : (l1 ++ l2).find? p = l2.find? p := by
  rw [List.find?_append, h, Option.none_or]

theorem find?_eq_head?_of_all {α : Type} {p : α → Bool} :
    ∀ {l : List α}, (∀ a ∈ l, p a = true) → l.find? p = l.head? := by
  intro l h
  cases l with
  | nil => rfl
  | cons a rest =>
    rw [List.find?_cons_of_pos _ (by rw [h a (by simp)]), List.head?_cons]

theorem lexLe_cons_iff (a b : Nat) (as bs : List Nat) :
    lexLe (a :: as) (b :: bs) = true ↔ a < b ∨ (a = b ∧ lexLe as bs = true) := by
  rw [lexLe_iff, lexLt_cons_iff, lexLe_iff]
  constructor
  · rintro ((h | ⟨rfl, h⟩) | he)
    · exact Or.inl h
    · exact Or.inr ⟨rfl, Or.inl h⟩
    · rw [List.cons.injEq] at he
      exact Or.inr ⟨he.1, Or.inr he.2⟩
  · rintro (h | ⟨rfl, h | rfl⟩)
    · exact Or.inl (Or.inl h)
    · exact Or.inl (Or.inr ⟨rfl, h⟩)
    · exact Or.inr rfl

theorem sortedStrict_pairwise : ∀ (l : List Nat), sortedStrict l = true →
    l.Pairwise (· < ·) := by
  intro l
  induction l with
  | nil => intro _; exact List.Pairwise.nil
  | cons a rest ih =>
    intro h
    exact List.Pairwise.cons (sortedStrict_head_lt h) (ih (sortedStrict_tail h))

theorem dropWhile_ge : ∀ (ts : List (Nat × Node)) (m : Nat),
    sortedStrict (ts.map Prod.fst) = true →
    ∀ t ∈ ts.dropWhile (fun u => decide (u.1 < m)), m ≤ t.1 := by
  intro ts
  induction ts with
  | nil => intro m _ t ht; simp at ht
  | cons a rest ih =>
    intro m hs t ht
    rw [List.dropWhile] at ht
    cases ha : decide (a.1 < m) with
    | true =>
      rw [ha] at ht
      exact ih m (sortedStrict_tail (by simpa using hs)) t ht
    | false =>
      rw [ha] at ht
      have ham : m ≤ a.1 := by
        have := of_decide_eq_false ha
        omega
      rcases List.mem_cons.mp ht with rfl | ht'
      · exact ham
      · have : a.1 < t.1 :=
          sortedStrict_head_lt (by simpa using hs) t.1
            (by simpa using List.mem_map_of_mem Prod.fst ht')
        omega

theorem takeWhile_lt : ∀ (ts : List (Nat × Node)) (m : Nat),
    ∀ t ∈ ts.takeWhile (fun u => decide (u.1 < m)), t.1 < m := by
  intro ts
  induction ts with
  | nil => intro m t ht; simp at ht
  | cons a rest ih =>
    intro m t ht
    rw [List.takeWhile] at ht
    cases ha : decide (a.1 < m) with
    | true =>
      rw [ha] at ht
      rcases List.mem_cons.mp ht with rfl | ht'
      · exact of_decide_eq_true ha
      · exact ih m t ht'
    | false => rw [ha] at ht; simp at ht

/-! ### Unfolding lemmas for `find_first_after` -/

theorem ffa_nil (mn : List Nat) (ms : Bool) (i : Nat) :
    find_first_after [] mn ms i = none := by
  rw [find_first_after]
  by_cases h : 2 ≤ i <;> simp [h]

theorem ffa_level2_cons (t : Nat × Node) (ts : List (Nat × Node)) (mn : List Nat) (ms : Bool)
    {i : Nat} (h : 2 ≤ i) :
    find_first_after (t :: ts) mn ms i = some [0, 0, t.1] := by
  rw [find_first_after]
  simp [h]

theorem ffa_cons (t : Nat × Node) (rest : List (Nat × Node)) (mn : List Nat) (ms : Bool)
    {i : Nat} (h : i < 2) :
    find_first_after (t :: rest) mn ms i =
      match find_first_after
          (if ms && (t.1 == mn.getD i 0)
            then (t.2).transitions.dropWhile (fun u => u.1 < mn.getD (i + 1) 0)
            else (t.2).transitions)
          mn (ms && (t.1 == mn.getD i 0)) (i + 1) with
      | some result => some (result.set i t.1)
      | none => find_first_after rest mn ms i := by
  rw [find_first_after]
  simp [Nat.not_le.mpr h]

theorem ffa_level2 (ts : List (Nat × Node)) (mn : List Nat) (ms : Bool)
    {i : Nat} (h : 2 ≤ i) :
    find_first_after ts mn ms i = ts.head?.map (fun t => [0, 0, t.1]) := by
  cases ts with
  | nil => rw [ffa_nil]; rfl
  | cons t rest => rw [ffa_level2_cons _ _ _ _ h]; rfl

theorem ffa_level2_skip (cts : List (Nat × Node)) (m2 : Nat) (mn : List Nat) (ms : Bool)
    {i : Nat} (h : 2 ≤ i) :
    find_first_after (cts.dropWhile (fun u => u.1 < m2)) mn ms i
      = (cts.find? (fun u => !(decide (u.1 < m2)))).map (fun t => [0, 0, t.1]) := by
  rw [ffa_level2 _ _ _ h, head?_dropWhile_eq]

/-! ### Further lexicographic helpers -/

theorem decide_le_eq_not_lt (a b : Nat) : decide (a ≤ b) = !decide (b < a) := by
  by_cases h : a ≤ b <;> by_cases h2 : b < a <;> simp [h, h2] <;> omega

theorem lexLe_cons_same (m : Nat) (xs ys : List Nat) :
    lexLe (m :: xs) (m :: ys) = lexLe xs ys := by
  simp [lexLe, lexLt]

theorem lexLe_cons_lt {m b : Nat} (h : m < b) (xs ys : List Nat) :
    lexLe (m :: xs) (b :: ys) = true := by
  have hne : m ≠ b := by omega
  simp [lexLe, lexLt, h]

theorem lexLe_cons_gt {m b : Nat} (h : b < m) (xs ys : List Nat) :
    lexLe (m :: xs) (b :: ys) = false := by
  have h1 : ¬ m < b := by omega
  have h2 : m ≠ b := by omega
  simp [lexLe, lexLt, h1, h2]

theorem lexLe_single (a b : Nat) : lexLe [a] [b] = decide (a ≤ b) := by
  by_cases h : a < b
  · have : a ≤ b := by omega
    simp [lexLe, lexLt, h, this]
  · by_cases h2 : a = b
    · simp [lexLe, lexLt, h2]
    · have h3 : ¬ a ≤ b := by omega
      simp [lexLe, lexLt, h, h2, h3]

/-! ### `pathsDown` structure lemmas -/

theorem pathsDown_zero (ts : List (Nat × Node)) :
    pathsDown 0 ts = ts.map (fun t => [t.1]) := rfl

theorem pathsDown_succ_cons (d : Nat) (t : Nat × Node) (rest : List (Nat × Node)) :
    pathsDown (d + 1) (t :: rest)
      = (pathsDown d t.2.transitions).map (fun s => t.1 :: s) ++ pathsDown (d + 1) rest := by
  rw [pathsDown, List.flatMap_cons]
  have h2 : pathsDown (d + 1) rest
      = rest.flatMap (fun t => (pathsDown d t.2.transitions).map (fun s => t.1 :: s)) := by
    rw [pathsDown]
  rw [h2]

theorem pathsDown_succ_nil (d : Nat) : pathsDown (d + 1) [] = [] := rfl

theorem pathsDown_append (d : Nat) (l1 l2 : List (Nat × Node)) :
    pathsDown d (l1 ++ l2) = pathsDown d l1 ++ pathsDown d l2 := by
  cases d with
  | zero => simp [pathsDown_zero]
  | succ d =>
    simp only [pathsDown]
    rw [List.flatMap_append]

/-! ### Level-1 characterisation of `find_first_after` -/

theorem ffa_level1_all (m0 m1 m2 : Nat) :
    ∀ (ts : List (Nat × Node)), (∀ t ∈ ts, m1 ≤ t.1) →
    find_first_after ts [m0, m1, m2] true 1
      = ((pathsDown 1 ts).find? (fun s => lexLe [m1, m2] s)).map (fun s => 0 :: s) := by
  intro ts
  induction ts with
  | nil => intro _; rw [ffa_nil, pathsDown_succ_nil]; rfl
  | cons t rest ih =>
    intro halls
    have hge : m1 ≤ t.1 := halls t (by simp)
    have ihr := ih (fun x hx => halls x (by simp [hx]))
    rw [ffa_cons _ _ _ _ (by omega)]
    rw [pathsDown_succ_cons, pathsDown_zero, List.map_map]
    have hgd1 : ([m0, m1, m2] : List Nat).getD 1 0 = m1 := rfl
    have hgd2 : ([m0, m1, m2] : List Nat).getD (1 + 1) 0 = m2 := rfl
    by_cases heq : t.1 = m1
    · have hbeq : (true && (t.1 == ([m0, m1, m2] : List Nat).getD 1 0)) = true := by
        rw [hgd1]
        simp [heq]
      rw [hbeq, if_pos rfl, hgd2, ffa_level2_skip _ _ _ _ (by omega)]
      have hpred : ∀ a ∈ (t.2).transitions,
          lexLe [m1, m2] (((fun s => t.1 :: s) ∘ fun v => [v.1]) a) = !(decide (a.1 < m2)) := by
        intro v _
        show lexLe [m1, m2] [t.1, v.1] = !(decide (v.1 < m2))
        rw [heq, lexLe_cons_same, lexLe_single, decide_le_eq_not_lt]
      rw [List.find?_append, find?_of_map, find?_congr_pred _ _ _ hpred]
      cases hfu : (t.2).transitions.find? (fun u => !(decide (u.1 < m2))) with
      | some u => rfl
      | none =>
        show find_first_after rest [m0, m1, m2] true 1
          = ((pathsDown 1 rest).find? (fun s => lexLe [m1, m2] s)).map (fun s => 0 :: s)
        exact ihr
    · have hgt : m1 < t.1 := by omega
      have hbeq : (true && (t.1 == ([m0, m1, m2] : List Nat).getD 1 0)) = false := by
        rw [hgd1]
        simp
        omega
      rw [hbeq, if_neg (by simp), ffa_level2 _ _ _ (by omega)]
      have hall : ∀ s ∈ (t.2).transitions.map ((fun s => t.1 :: s) ∘ fun v => [v.1]),
          lexLe [m1, m2] s = true := by
        intro s hs
        rw [List.mem_map] at hs
        obtain ⟨v, _, rfl⟩ := hs
        show lexLe (m1 :: [m2]) (t.1 :: [v.1]) = true
        exact lexLe_cons_lt hgt _ _
      rw [List.find?_append, find?_eq_head?_of_all hall, List.head?_map]
      cases hfu : (t.2).transitions.head? with
      | some u => rfl
      | none =>
        show find_first_after rest [m0, m1, m2] true 1
          = ((pathsDown 1 rest).find? (fun s => lexLe [m1, m2] s)).map (fun s => 0 :: s)
        exact ihr

theorem mem_pathsDown_zero {ts : List (Nat × Node)} {s : List Nat} :
    s ∈ pathsDown 0 ts ↔ ∃ t ∈ ts, s = [t.1] := by
  rw [pathsDown_zero]
  simp [List.mem_map, eq_comm]

theorem mem_pathsDown_succ {d : Nat} {ts : List (Nat × Node)} {s : List Nat} :
    s ∈ pathsDown (d + 1) ts ↔
      ∃ t ∈ ts, ∃ s', s' ∈ pathsDown d t.2.transitions ∧ s = t.1 :: s' := by
  rw [pathsDown]
  simp only [List.mem_flatMap, List.mem_map]
  constructor
  · rintro ⟨t, ht, s', hs', rfl⟩
    exact ⟨t, ht, s', hs', rfl⟩
  · rintro ⟨t, ht, s', hs', rfl⟩
    exact ⟨t, ht, s', hs', rfl⟩

theorem wfList_dropWhile (p : Nat × Node → Bool) :
    ∀ (ts : List (Nat × Node)), wfList ts = true → wfList (ts.dropWhile p) = true := by
  intro ts
  induction ts with
  | nil => intro _; rfl
  | cons t rest ih =>
    intro h
    obtain ⟨b, c⟩ := t
    rw [wfList, Bool.and_eq_true_iff] at h
    cases hp : p (b, c) with
    | true =>
      rw [List.dropWhile_cons_of_pos (by rw [hp])]
      exact ih h.2
    | false =>
      rw [List.dropWhile_cons_of_neg (by simp [hp]), wfList, Bool.and_eq_true_iff]
      exact ⟨h.1, h.2⟩

theorem ffa_level1_noskip (ts : List (Nat × Node)) (m0 m1 m2 : Nat) :
    find_first_after ts [m0, m1, m2] false 1
      = (pathsDown 1 ts).head?.map (fun s => 0 :: s) := by
  induction ts with
  | nil => rw [ffa_nil, pathsDown_succ_nil]; rfl
  | cons t rest ih =>
    rw [ffa_cons _ _ _ _ (by omega)]
    rw [pathsDown_succ_cons, pathsDown_zero, List.map_map]
    have hbeq : (false && (t.1 == ([m0, m1, m2] : List Nat).getD 1 0)) = false := rfl
    rw [hbeq, if_neg (by simp), ffa_level2 _ _ _ (by omega)]
    rw [List.head?_append, List.head?_map]
    cases hfu : (t.2).transitions.head? with
    | some u => rfl
    | none =>
      show find_first_after rest [m0, m1, m2] false 1
        = (pathsDown 1 rest).head?.map (fun s => 0 :: s)
      exact ih

theorem ffa_level1_skip (cts : List (Nat × Node)) (m0 m1 m2 : Nat)
    (hs : sortedStrict (cts.map Prod.fst) = true) :
    find_first_after (cts.dropWhile (fun u => u.1 < m1)) [m0, m1, m2] true 1
      = ((pathsDown 1 cts).find? (fun s => lexLe [m1, m2] s)).map (fun s => 0 :: s) := by
  rw [ffa_level1_all m0 m1 m2 _ (dropWhile_ge cts m1 hs)]
  have hsplit : cts.takeWhile (fun u => decide (u.1 < m1))
      ++ cts.dropWhile (fun u => decide (u.1 < m1)) = cts :=
    List.takeWhile_append_dropWhile _ _
  conv_rhs => rw [← hsplit]
  rw [pathsDown_append, List.find?_append]
  have hnone : (pathsDown 1 (cts.takeWhile (fun u => decide (u.1 < m1)))).find?
      (fun s => lexLe [m1, m2] s) = none := by
    rw [List.find?_eq_none]
    intro s hmem
    obtain ⟨t, ht, s', _, rfl⟩ := mem_pathsDown_succ.mp hmem
    have hlt : t.1 < m1 := takeWhile_lt cts m1 t ht
    rw [lexLe_cons_gt hlt]
    simp
  rw [hnone, Option.none_or]

theorem ffa_level1_skip_idx (cts : List (Nat × Node)) (m0 m1 m2 : Nat) {i : Nat}
    (hi : i = 1) (hs : sortedStrict (cts.map Prod.fst) = true) :
    find_first_after (cts.dropWhile (fun u => u.1 < m1)) [m0, m1, m2] true i
      = ((pathsDown 1 cts).find? (fun s => lexLe [m1, m2] s)).map (fun s => 0 :: s) := by
  subst hi
  exact ffa_level1_skip cts m0 m1 m2 hs

theorem ffa_level1_noskip_idx (ts : List (Nat × Node)) (m0 m1 m2 : Nat) {i : Nat}
    (hi : i = 1) :
    find_first_after ts [m0, m1, m2] false i
      = (pathsDown 1 ts).head?.map (fun s => 0 :: s) := by
  subst hi
  exact ffa_level1_noskip ts m0 m1 m2

/-! ### Level-0 characterisation of `find_first_after` -/

theorem wfList_cons (t : Nat × Node) (rest : List (Nat × Node)) :
    wfList (t :: rest) = (Node.wf t.2 && wfList rest) := by
  obtain ⟨b, c⟩ := t
  rfl

theorem pathsDown_two_cons (t : Nat × Node) (rest : List (Nat × Node)) :
    pathsDown 2 (t :: rest)
      = (pathsDown 1 t.2.transitions).map (fun s => t.1 :: s) ++ pathsDown 2 rest :=
  pathsDown_succ_cons 1 t rest

theorem mem_pathsDown_two {ts : List (Nat × Node)} {s : List Nat} :
    s ∈ pathsDown 2 ts ↔
      ∃ t ∈ ts, ∃ s', s' ∈ pathsDown 1 t.2.transitions ∧ s = t.1 :: s' :=
  mem_pathsDown_succ (d := 1)

theorem ffa_level0_all (m0 m1 m2 : Nat) :
    ∀ (ts : List (Nat × Node)), (∀ t ∈ ts, m0 ≤ t.1) → wfList ts = true →
    find_first_after ts [m0, m1, m2] true 0
      = (pathsDown 2 ts).find? (fun s => lexLe [m0, m1, m2] s) := by
  intro ts
  induction ts with
  | nil => intro _ _; rw [ffa_nil]; rfl
  | cons t rest ih =>
    intro halls hwl
    have hge : m0 ≤ t.1 := halls t (by simp)
    rw [wfList_cons, Bool.and_eq_true_iff] at hwl
    have ihr := ih (fun x hx => halls x (by simp [hx])) hwl.2
    rw [ffa_cons _ _ _ _ (by omega)]
    rw [pathsDown_two_cons]
    have hgd0 : ([m0, m1, m2] : List Nat).getD 0 0 = m0 := rfl
    have hgd1 : ([m0, m1, m2] : List Nat).getD (0 + 1) 0 = m1 := rfl
    by_cases heq : t.1 = m0
    · have hbeq : (true && (t.1 == ([m0, m1, m2] : List Nat).getD 0 0)) = true := by
        rw [hgd0]
        simp [heq]
      rw [hbeq, if_pos rfl, hgd1,
        ffa_level1_skip_idx _ m0 m1 m2 rfl (wf_sorted hwl.1)]
      have hpred : ∀ a ∈ pathsDown 1 (t.2).transitions,
          lexLe [m0, m1, m2] ((fun s => t.1 :: s) a) = lexLe [m1, m2] a := by
        intro s _
        show lexLe [m0, m1, m2] (t.1 :: s) = lexLe [m1, m2] s
        rw [heq]
        exact lexLe_cons_same _ _ _
      rw [List.find?_append, find?_of_map, find?_congr_pred _ _ _ hpred]
      cases hfx : (pathsDown 1 (t.2).transitions).find? (fun a => lexLe [m1, m2] a) with
      | some s => rfl
      | none =>
        show find_first_after rest [m0, m1, m2] true 0
          = (pathsDown 2 rest).find? (fun s => lexLe [m0, m1, m2] s)
        exact ihr
    · have hgt : m0 < t.1 := by omega
      have hbeq : (true && (t.1 == ([m0, m1, m2] : List Nat).getD 0 0)) = false := by
        rw [hgd0]
        simp
        omega
      rw [hbeq, if_neg (by simp), ffa_level1_noskip_idx _ m0 m1 m2 rfl]
      have hall : ∀ s ∈ (pathsDown 1 (t.2).transitions).map (fun s => t.1 :: s),
          lexLe [m0, m1, m2] s = true := by
        intro s hs
        rw [List.mem_map] at hs
        obtain ⟨s', _, rfl⟩ := hs
        exact lexLe_cons_lt hgt _ _
      rw [List.find?_append, find?_eq_head?_of_all hall, List.head?_map]
      cases hfx : (pathsDown 1 (t.2).transitions).head? with
      | some s => rfl
      | none =>
        show find_first_after rest [m0, m1, m2] true 0
          = (pathsDown 2 rest).find? (fun s => lexLe [m0, m1, m2] s)
        exact ihr

theorem ffa_level0_skip (cts : List (Nat × Node)) (m0 m1 m2 : Nat)
    (hs : sortedStrict (cts.map Prod.fst) = true) (hw : wfList cts = true) :
    find_first_after (cts.dropWhile (fun u => u.1 < m0)) [m0, m1, m2] true 0
      = (pathsDown 2 cts).find? (fun s => lexLe [m0, m1, m2] s) := by
  rw [ffa_level0_all m0 m1 m2 _ (dropWhile_ge cts m0 hs) (wfList_dropWhile _ cts hw)]
  have hsplit : cts.takeWhile (fun u => decide (u.1 < m0))
      ++ cts.dropWhile (fun u => decide (u.1 < m0)) = cts :=
    List.takeWhile_append_dropWhile _ _
  conv_rhs => rw [← hsplit]
  rw [pathsDown_append, List.find?_append]
  have hnone : (pathsDown 2 (cts.takeWhile (fun u => decide (u.1 < m0)))).find?
      (fun s => lexLe [m0, m1, m2] s) = none := by
    rw [List.find?_eq_none]
    intro s hmem
    obtain ⟨t, ht, s', _, rfl⟩ := mem_pathsDown_two.mp hmem
    rw [lexLe_cons_gt (takeWhile_lt cts m0 t ht)]
    simp
  rw [hnone, Option.none_or]

/-! ### The DFS path enumeration is sorted, and matches walks -/

theorem lexLt_cons_of_lt {a b : Nat} (h : a < b) (xs ys : List Nat) :
    lexLt (a :: xs) (b :: ys) = true := by
  rw [lexLt_cons_iff]
  exact Or.inl h

theorem lexLt_cons_of_tail {a : Nat} {xs ys : List Nat} (h : lexLt xs ys = true) :
    lexLt (a :: xs) (a :: ys) = true := by
  rw [lexLt_cons_iff]
  exact Or.inr ⟨rfl, h⟩

theorem pathsDown_pairwise : ∀ (d : Nat) (ts : List (Nat × Node)),
    sortedStrict (ts.map Prod.fst) = true → wfList ts = true →
    (pathsDown d ts).Pairwise (fun a b => lexLt a b = true) := by
  intro d
  induction d with
  | zero =>
    intro ts hs _
    rw [pathsDown_zero, List.pairwise_map]
    have hp : (ts.map Prod.fst).Pairwise (· < ·) := sortedStrict_pairwise _ hs
    rw [List.pairwise_map] at hp
    exact hp.imp (fun h => lexLt_cons_of_lt h [] [])
  | succ d ih =>
    intro ts hs hw
    rw [pathsDown, List.pairwise_flatMap]
    constructor
    · intro t ht
      rw [List.pairwise_map]
      have hwt : Node.wf t.2 = true := wfList_mem ts t.1 t.2 hw ht
      exact ((ih t.2.transitions (wf_sorted hwt) (wf_wfList hwt)).imp
        (fun h => lexLt_cons_of_tail h))
    · have hp : (ts.map Prod.fst).Pairwise (· < ·) := sortedStrict_pairwise _ hs
      rw [List.pairwise_map] at hp
      refine hp.imp ?_
      intro t u h x hx y hy
      rw [List.mem_map] at hx hy
      obtain ⟨x', _, rfl⟩ := hx
      obtain ⟨y', _, rfl⟩ := hy
      exact lexLt_cons_of_lt h x' y'

theorem mem_pathsDown_one {ts : List (Nat × Node)} {s : List Nat} :
    s ∈ pathsDown 1 ts ↔
      ∃ t ∈ ts, ∃ s', s' ∈ pathsDown 0 t.2.transitions ∧ s = t.1 :: s' :=
  mem_pathsDown_succ (d := 0)

theorem exists_three {g : List Nat} (h : g.length = 3) :
    ∃ b0 b1 b2, g = [b0, b1, b2] := by
  cases g with
  | nil => simp at h
  | cons b0 g0 =>
    cases g0 with
    | nil => simp at h
    | cons b1 g1 =>
      cases g1 with
      | nil => simp at h
      | cons b2 g2 =>
        cases g2 with
        | nil => exact ⟨b0, b1, b2, rfl⟩
        | cons b3 g3 =>
          rw [List.length_cons, List.length_cons, List.length_cons, List.length_cons] at h
          omega

theorem accepts_isSome {n : Node} {k : List Nat} (h : Node.accepts n k = true) :
    (partial_search n k).isSome = true := by
  rw [Node.accepts] at h
  cases hp : partial_search n k with
  | none => rw [hp] at h; simp at h
  | some m => rfl

/-- A 3-byte path leaves a node exactly when the walk of its three bytes
succeeds. -/
theorem mem_paths3_iff (n : Node) (hwf : Node.wf n = true) (g : List Nat) :
    g ∈ pathsDown 2 n.transitions ↔ g.length = 3 ∧ (partial_search n g).isSome = true := by
  constructor
  · intro hg
    obtain ⟨t, ht, s1, hs1, rfl⟩ := mem_pathsDown_two.mp hg
    obtain ⟨u, hu, s2, hs2, rfl⟩ := mem_pathsDown_one.mp hs1
    obtain ⟨v, hv, rfl⟩ := mem_pathsDown_zero.mp hs2
    refine ⟨rfl, ?_⟩
    have hw1 : Node.wf t.2 = true := wf_child hwf ht
    have hw2 : Node.wf u.2 = true := wf_child hw1 hu
    have e1 : partial_search n [t.1, u.1, v.1] = partial_search t.2 [u.1, v.1] := by
      rw [partial_search, find_input_eq hwf ht]
    have e2 : partial_search t.2 [u.1, v.1] = partial_search u.2 [v.1] := by
      rw [partial_search, find_input_eq hw1 hu]
    have e3 : partial_search u.2 [v.1] = some v.2 := by
      rw [partial_search, find_input_eq hw2 hv]
      rfl
    rw [e1, e2, e3]
    rfl
  · rintro ⟨hlen, hsome⟩
    obtain ⟨b0, b1, b2, rfl⟩ := exists_three hlen
    rw [partial_search] at hsome
    cases hf1 : Node.find_input n b0 with
    | none => rw [hf1] at hsome; simp at hsome
    | some c1 =>
      rw [hf1] at hsome
      have hsome1 : (partial_search c1 [b1, b2]).isSome = true := hsome
      rw [partial_search] at hsome1
      cases hf2 : Node.find_input c1 b1 with
      | none => rw [hf2] at hsome1; simp at hsome1
      | some c2 =>
        rw [hf2] at hsome1
        have hsome2 : (partial_search c2 [b2]).isSome = true := hsome1
        rw [partial_search] at hsome2
        cases hf3 : Node.find_input c2 b2 with
        | none => rw [hf3] at hsome2; simp at hsome2
        | some c3 =>
          refine mem_pathsDown_two.mpr ⟨(b0, c1), find_input_some hf1, [b1, b2], ?_, rfl⟩
          refine mem_pathsDown_one.mpr ⟨(b1, c2), find_input_some hf2, [b2], ?_, rfl⟩
          exact mem_pathsDown_zero.mpr ⟨(b2, c3), find_input_some hf3, rfl⟩

/-- The first element satisfying `p` in a pairwise-ordered list is below
every other element satisfying `p`. -/
theorem find?_min {α : Type} {p : α → Bool} {R : α → α → Prop} :
    ∀ {l : List α}, l.Pairwise R → ∀ {r : α}, l.find? p = some r →
      ∀ g ∈ l, p g = true → r = g ∨ R r g := by
  intro l
  induction l with
  | nil => intro _ r hr; simp at hr
  | cons a rest ih =>
    intro hpw r hr g hg hpg
    rw [List.pairwise_cons] at hpw
    cases hpa : p a with
    | true =>
      rw [List.find?_cons_of_pos _ hpa] at hr
      obtain rfl := Option.some.inj hr
      rcases List.mem_cons.mp hg with rfl | hg'
      · exact Or.inl rfl
      · exact Or.inr (hpw.1 g hg')
    | false =>
      rw [List.find?_cons_of_neg _ (by simp [hpa])] at hr
      rcases List.mem_cons.mp hg with rfl | hg'
      · rw [hpa] at hpg
        exact absurd hpg (by simp)
      · exact ih hpw.2 hr g hg' hpg

theorem lexLe_of_lexLt {x y : List Nat} (h : lexLt x y = true) : lexLe x y = true := by
  rw [lexLe_iff]
  exact Or.inl h

/-! ### Claim C1: `PhraseSet::contains_prefix` with a trailing range -/

/-- C1: on a phrase of `Full` words `ws` with a trailing `Prefix` whose
id range is `(mn, mx)` with `mn ≤ mx`, `PhraseSet::contains_prefix`
returns `Ok(true)` iff some key of the set extends the `3n`-byte key of
`ws` by a 3-byte segment `g` with
`encode(mn) ≤ g ≤ encode(mx)` lexicographically; neither bound itself
needs to be a real path. -/
theorem contains_prefix_range_iff (t : Node) (hwf : Node.wf t = true) (ws : List Nat)
    (mn mx : Nat) (_hrange : mn ≤ mx) :
    PhraseSet.contains_prefix t (mkRangePhrase ws mn mx) = Except.ok true ↔
    ∃ key, Node.accepts t key = true ∧ ∃ g, g.length = 3 ∧
      lexLe (three_byte_encode mn) g = true ∧ lexLe g (three_byte_encode mx) = true ∧
      phrase_to_key ws ++ g <+: key := by
  rw [PhraseSet.contains_prefix, if_pos (mkRangePhrase_flag ws mn mx)]
  simp only [Except.ok.injEq]
  simp only [PhraseSet.contains_prefix_with_range, mkRangePhrase_pkr, mkRangePhrase_fwk]
  obtain ⟨e0, e1, e2, hemn⟩ : ∃ a b c, three_byte_encode mn = [a, b, c] :=
    ⟨_, _, _, three_byte_encode_eq mn⟩
  obtain ⟨f0, f1, f2, hemx⟩ : ∃ a b c, three_byte_encode mx = [a, b, c] :=
    ⟨_, _, _, three_byte_encode_eq mx⟩
  simp only [hemn, hemx]
  cases hps : partial_search t (phrase_to_key ws) with
  | none =>
    constructor
    · intro h
      simp at h
    · rintro ⟨key, hacc, g, hlen, hmng, hgmx, hpre⟩
      exfalso
      obtain ⟨suf, rfl⟩ := hpre
      have hsome : (partial_search t (phrase_to_key ws ++ g ++ suf)).isSome = true :=
        accepts_isSome hacc
      rw [List.append_assoc, partial_search_append, hps] at hsome
      simp at hsome
  | some n =>
    have hwn : Node.wf n = true := partial_search_wf _ hwf hps
    dsimp only
    by_cases hemp : Node.is_empty n = true
    · rw [if_pos hemp]
      have htr : n.transitions = [] := by
        rw [Node.is_empty, List.isEmpty_iff] at hemp
        exact hemp
      constructor
      · intro h
        simp at h
      · rintro ⟨key, hacc, g, hlen, hmng, hgmx, hpre⟩
        exfalso
        obtain ⟨suf, rfl⟩ := hpre
        have hsome : (partial_search t (phrase_to_key ws ++ g ++ suf)).isSome = true :=
          accepts_isSome hacc
        rw [List.append_assoc, partial_search_append, hps] at hsome
        have hsome2 : (partial_search n (g ++ suf)).isSome = true := hsome
        rw [partial_search_append] at hsome2
        obtain ⟨b0, b1, b2, rfl⟩ := exists_three hlen
        rw [partial_search] at hsome2
        have hfi : Node.find_input n b0 = none := by
          rw [Node.find_input, htr]
          rfl
        rw [hfi] at hsome2
        simp at hsome2
    · rw [if_neg hemp]
      have hgd0 : (([e0, e1, e2] : List Nat)).getD 0 0 = e0 := rfl
      simp only [hgd0]
      rw [ffa_level0_skip n.transitions e0 e1 e2 (wf_sorted hwn) (wf_wfList hwn)]
      constructor
      · intro h
        cases hfr : (pathsDown 2 n.transitions).find? (fun s => lexLe [e0, e1, e2] s) with
        | none =>
          rw [hfr] at h
          simp at h
        | some r =>
          rw [hfr] at h
          have hr : lexLe r [f0, f1, f2] = true := h
          have hmem := List.mem_of_find?_eq_some hfr
          have hple : lexLe [e0, e1, e2] r = true := List.find?_some hfr
          obtain ⟨hlen3, hsome⟩ := (mem_paths3_iff n hwn r).mp hmem
          rw [Option.isSome_iff_exists] at hsome
          obtain ⟨m, hpsnr⟩ := hsome
          have hwm : Node.wf m = true := partial_search_wf r hwn hpsnr
          obtain ⟨s, hs⟩ := exists_accepts m hwm
          refine ⟨phrase_to_key ws ++ r ++ s, ?_, r, hlen3, hple, hr, ⟨s, by
            rw [List.append_assoc]⟩⟩
          have h2 : partial_search t (phrase_to_key ws ++ r ++ s) = partial_search m s := by
            rw [List.append_assoc, partial_search_append, hps]
            show partial_search n (r ++ s) = partial_search m s
            rw [partial_search_append, hpsnr]
            rfl
          rw [Node.accepts, h2]
          rw [Node.accepts] at hs
          exact hs
      · rintro ⟨key, hacc, g, hlen3, hmng, hgmx, hpre⟩
        obtain ⟨suf, rfl⟩ := hpre
        have hsome : (partial_search t (phrase_to_key ws ++ g ++ suf)).isSome = true :=
          accepts_isSome hacc
        rw [List.append_assoc, partial_search_append, hps] at hsome
        have hsome2 : (partial_search n (g ++ suf)).isSome = true := hsome
        rw [partial_search_append] at hsome2
        cases hpg : partial_search n g with
        | none =>
          rw [hpg] at hsome2
          simp at hsome2
        | some m =>
          have hgmem : g ∈ pathsDown 2 n.transitions :=
            (mem_paths3_iff n hwn g).mpr ⟨hlen3, by rw [hpg]; rfl⟩
          have hfs : ∃ r, (pathsDown 2 n.transitions).find?
              (fun s => lexLe [e0, e1, e2] s) = some r := by
            rw [← Option.isSome_iff_exists, List.find?_isSome]
            exact ⟨g, hgmem, hmng⟩
          obtain ⟨r, hfr⟩ := hfs
          rw [hfr]
          show lexLe r [f0, f1, f2] = true
          have hmin := find?_min
            (pathsDown_pairwise 2 n.transitions (wf_sorted hwn) (wf_wfList hwn))
            hfr g hgmem hmng
          rcases hmin with rfl | hlt
          · exact hgmx
          · exact lexLe_trans (lexLe_of_lexLt hlt) hgmx

/-- Witness for C1: in the example set the range bounded by the encodings
of `131328` (key `[2,1,0]`) and `262144` (key `[4,0,0]`) is inhabited. -/
theorem contains_prefix_range_iff_witness :
    Node.wf exampleSet = true ∧ (131328 : Nat) ≤ 262144 ∧
    (PhraseSet.contains_prefix exampleSet (mkRangePhrase [] 131328 262144) = Except.ok true ↔
      ∃ key, Node.accepts exampleSet key = true ∧ ∃ g, g.length = 3 ∧
        lexLe (three_byte_encode 131328) g = true ∧
        lexLe g (three_byte_encode 262144) = true ∧
        phrase_to_key [] ++ g <+: key) :=
  ⟨by decide, by decide,
    contains_prefix_range_iff exampleSet (by decide) [] 131328 262144 (by decide)⟩

/-! ### FuzzyMap lookup precision (claim C2) -/

/-- C2: every `(word, id)` pair in a successful result of
`FuzzyMap.lookup query d lookup_fn` is within true Damerau-Levenshtein
distance `d` of the query, for every query, distance and map: the final
filter of `lookup` retains exactly those pairs. -/
theorem lookup_precision (m : FuzzyMap) (query : List Char) (d : Nat)
    (f : Nat → List Char) (result : List (List Char × Nat))
    (h : m.lookup query d f = some result) :
    ∀ p ∈ result, damerau_levenshtein query p.1 ≤ d := by
  intro p hp
  rw [FuzzyMap.lookup] at h
  cases hms : lookup_matches m (query :: get_variants query d) with
  | none => simp [hms] at h
  | some ms =>
    simp only [hms] at h
    rw [Option.some_inj] at h
    subst h
    rw [List.mem_filter] at hp
    exact of_decide_eq_true hp.2

/-- Witness for `lookup_precision`: a concrete one-word map and an exact
query. -/
theorem lookup_precision_witness :
    FuzzyMap.lookup ⟨[], [([ 'a' ], 0)]⟩ [ 'a' ] 0 (fun _ => [ 'a' ]) =
      some [([ 'a' ], 0)] ∧
    damerau_levenshtein [ 'a' ] [ 'a' ] ≤ 0 := by
  have hdl : damerau_levenshtein [ 'a' ] [ 'a' ] = 0 := by
    simp [damerau_levenshtein]
  have h : FuzzyMap.lookup ⟨[], [([ 'a' ], 0)]⟩ [ 'a' ] 0 (fun _ => [ 'a' ]) =
      some [([ 'a' ], 0)] := by
    simp [FuzzyMap.lookup, lookup_matches, FuzzyMap.get, get_variants,
      variants_upto, BIG_NUMBER, dedup_adjacent, hdl, List.insertionSort,
      List.orderedInsert]
  exact ⟨h, lookup_precision _ _ _ _ _ h ([ 'a' ], 0) (by simp)⟩

/-! ### Order theory for string keys and builder pairs -/

theorem strLt_cons_iff (a b : Char) (as bs : List Char) :
    strLt (a :: as) (b :: bs) = true ↔ a < b ∨ (a = b ∧ strLt as bs = true) := by
  simp [strLt]

theorem strLt_trans : ∀ {x y z : List Char},
    strLt x y = true → strLt y z = true → strLt x z = true
  | [], _ :: _, _ :: _, _, _ => rfl
  | _, _, [], _, h2 => by simp [strLt] at h2
  | [], [], _, h1, _ => by simp [strLt] at h1
  | _ :: _, [], _, h1, _ => by simp [strLt] at h1
  | a :: as, b :: bs, c :: cs, h1, h2 => by
    rw [strLt_cons_iff] at h1 h2 ⊢
    rcases h1 with h1 | ⟨rfl, h1⟩ <;> rcases h2 with h2 | ⟨rfl, h2⟩
    · exact Or.inl (lt_trans h1 h2)
    · exact Or.inl h1
    · exact Or.inl h2
    · exact Or.inr ⟨rfl, strLt_trans h1 h2⟩

theorem strLt_total (x y : List Char) :
    strLt x y = true ∨ x = y ∨ strLt y x = true := by
  induction x generalizing y with
  | nil => cases y <;> simp [strLt]
  | cons a as ih =>
    cases y with
    | nil => simp [strLt]
    | cons b bs =>
      rcases lt_trichotomy a b with h | h | h
      · exact Or.inl (by rw [strLt_cons_iff]; exact Or.inl h)
      · subst h
        rcases ih bs with h' | h' | h'
        · exact Or.inl (by rw [strLt_cons_iff]; exact Or.inr ⟨rfl, h'⟩)
        · exact Or.inr (Or.inl (by rw [h']))
        · exact Or.inr (Or.inr (by rw [strLt_cons_iff]; exact Or.inr ⟨rfl, h'⟩))
      · exact Or.inr (Or.inr (by rw [strLt_cons_iff]; exact Or.inl h))

theorem pairLe_iff (a b : List Char × Nat) :
    pairLe a b = true ↔ strLt a.1 b.1 = true ∨ (a.1 = b.1 ∧ a.2 ≤ b.2) := by
  simp [pairLe]

theorem pairLe_total (a b : List Char × Nat) :
    pairLe a b = true ∨ pairLe b a = true := by
  rw [pairLe_iff, pairLe_iff]
  rcases strLt_total a.1 b.1 with h | h | h
  · exact Or.inl (Or.inl h)
  · rcases Nat.le_total a.2 b.2 with h' | h'
    · exact Or.inl (Or.inr ⟨h, h'⟩)
    · exact Or.inr (Or.inr ⟨h.symm, h'⟩)
  · exact Or.inr (Or.inl h)

theorem pairLe_trans (a b c : List Char × Nat) (h1 : pairLe a b = true)
    (h2 : pairLe b c = true) : pairLe a c = true := by
  rw [pairLe_iff] at h1 h2 ⊢
  rcases h1 with h1 | ⟨he1, h1⟩ <;> rcases h2 with h2 | ⟨he2, h2⟩
  · exact Or.inl (strLt_trans h1 h2)
  · exact Or.inl (he2 ▸ h1)
  · exact Or.inl (he1 ▸ h2)
  · exact Or.inr ⟨he1.trans he2, Nat.le_trans h1 h2⟩

theorem dedup_pairs_sublist : ∀ l : List (List Char × Nat),
    List.Sublist (dedup_adjacent_pairs l) l := by
  intro l
  induction l with
  | nil => simp [dedup_adjacent_pairs]
  | cons a t ih =>
    cases t with
    | nil => simp [dedup_adjacent_pairs]
    | cons b rest =>
      rw [dedup_adjacent_pairs]
      split
      · exact ih.cons a
      · exact ih.cons₂ a

/-! ### Grouping keeps keys strictly increasing on a sorted input -/

theorem gbk_head (k : List Char) (j : Nat) (rest : List (List Char × Nat)) :
    ∃ is gs, groupByKey ((k, j) :: rest) = (k, is) :: gs := by
  cases hr : groupByKey rest with
  | nil => exact ⟨[j], [], by simp [groupByKey, hr]⟩
  | cons g gs' =>
    obtain ⟨k2, is⟩ := g
    by_cases hk : k = k2
    · exact ⟨j :: is, gs', by simp [groupByKey, hr, hk]⟩
    · exact ⟨[j], (k2, is) :: gs', by simp [groupByKey, hr, hk]⟩

theorem gbk_keysStrict : ∀ dd : List (List Char × Nat),
    List.Chain' (fun a b => pairLe a b = true) dd →
    keysStrict ((groupByKey dd).map Prod.fst) = true := by
  intro dd
  induction dd with
  | nil => intro _; simp [groupByKey, keysStrict]
  | cons p rest ih =>
    intro h
    obtain ⟨k, j⟩ := p
    have ihr := ih h.tail
    cases hr : groupByKey rest with
    | nil => simp [groupByKey, hr, keysStrict]
    | cons g gs' =>
      obtain ⟨k2, is⟩ := g
      rw [hr] at ihr
      by_cases hk : k = k2
      · subst hk
        have h2 : groupByKey ((k, j) :: rest) = (k, j :: is) :: gs' := by
          simp [groupByKey, hr]
        rw [h2, List.map_cons]
        simpa using ihr
      · have h2 : groupByKey ((k, j) :: rest) = (k, [j]) :: (k2, is) :: gs' := by
          simp [groupByKey, hr, hk]
        rw [h2, List.map_cons, List.map_cons]
        -- the head key of `groupByKey rest` is the key of the head of `rest`
        cases rest with
        | nil => rw [groupByKey] at hr; exact absurd hr (by simp)
        | cons r rest' =>
          obtain ⟨kr, jr⟩ := r
          obtain ⟨is0, gs0, hg⟩ := gbk_head kr jr rest'
          rw [hg] at hr
          have hkr : kr = k2 := (Prod.mk.injEq _ _ _ _).mp (List.cons.inj hr).1 |>.1
          have hple : pairLe (k, j) (kr, jr) = true := (List.chain'_cons.mp h).1
          have hlt : strLt k k2 = true := by
            rw [pairLe_iff] at hple
            rcases hple with hp | ⟨hp, _⟩
            · exact hkr ▸ hp
            · exact absurd (hp.trans hkr) hk
          simp only [List.map_cons, keysStrict, Bool.and_eq_true]
          refine ⟨hlt, ?_⟩
          simpa using ihr

theorem finishBuilt_map_fst : ∀ (gs : List (List Char × List Nat))
    (acc : List (List Char × Nat) × List (List Nat)),
    ((gs.foldl buildStep acc).1).map Prod.fst =
      acc.1.map Prod.fst ++ gs.map Prod.fst := by
  intro gs
  induction gs with
  | nil => intro acc; simp
  | cons g gs' ih =>
    intro acc
    rw [List.foldl_cons, ih]
    have hstep : (buildStep acc g).1.map Prod.fst = acc.1.map Prod.fst ++ [g.1] := by
      rw [buildStep]; split <;> simp
    rw [hstep]
    simp [List.append_assoc]

/-- C4: the claimed build-time capacity check does not exist in the code:
`FuzzyMapBuilder.finish` succeeds on every input whatsoever — in
particular on inputs whose vocabulary or overflow table meets or
exceeds `BIG_NUMBER = 2^30` — because after sorting and grouping the
keys are always inserted in strictly increasing order and nothing else
can fail. -/
theorem finish_never_fails (wv : List (List Char × Nat)) :
    ∃ m, FuzzyMapBuilder.finish wv = Except.ok m := by
  have hsorted : List.Pairwise (fun a b => pairLe a b = true)
      (wv.insertionSort (fun a b => pairLe a b = true)) :=
    @List.sorted_insertionSort _ _ _ ⟨pairLe_total⟩ ⟨pairLe_trans⟩ wv
  have hchain : List.Chain' (fun a b => pairLe a b = true)
      (dedup_adjacent_pairs (wv.insertionSort (fun a b => pairLe a b = true))) :=
    (hsorted.sublist (dedup_pairs_sublist _)).chain'
  have hks : keysStrict ((finishBuilt wv).1.map Prod.fst) = true := by
    rw [finishBuilt, finishBuilt_map_fst]
    simp only [List.map_nil, List.nil_append]
    rw [finishGroups]
    exact gbk_keysStrict _ hchain
  exact ⟨⟨(finishBuilt wv).2, (finishBuilt wv).1⟩,
    by rw [FuzzyMapBuilder.finish, if_pos hks]⟩

/-! ### Overflow-table indexing (claim C9) -/

theorem gbk_mem : ∀ (dd : List (List Char × Nat)) (g : List Char × List Nat),
    g ∈ groupByKey dd → g.2 ≠ [] ∧ ∀ i ∈ g.2, (g.1, i) ∈ dd := by
  intro dd
  induction dd with
  | nil => intro g hg; simp [groupByKey] at hg
  | cons p rest ih =>
    intro g hg
    obtain ⟨k, j⟩ := p
    cases hr : groupByKey rest with
    | nil =>
      have h2 : groupByKey ((k, j) :: rest) = [(k, [j])] := by simp [groupByKey, hr]
      rw [h2] at hg
      obtain rfl := List.mem_singleton.mp hg
      refine ⟨by simp, fun i hi => ?_⟩
      obtain rfl := List.mem_singleton.mp hi
      exact List.mem_cons_self _ _
    | cons g0 gs' =>
      obtain ⟨k2, is⟩ := g0
      by_cases hk : k = k2
      · subst hk
        have h2 : groupByKey ((k, j) :: rest) = (k, j :: is) :: gs' := by
          simp [groupByKey, hr]
        rw [h2] at hg
        rcases List.mem_cons.mp hg with rfl | hg'
        · refine ⟨by simp, fun i hi => ?_⟩
          rcases List.mem_cons.mp hi with rfl | hi'
          · exact List.mem_cons_self _ _
          · have := (ih (k, is) (by rw [hr]; exact List.mem_cons_self _ _)).2 i hi'
            exact List.mem_cons_of_mem _ this
        · have := ih g (by rw [hr]; exact List.mem_cons_of_mem _ hg')
          exact ⟨this.1, fun i hi => List.mem_cons_of_mem _ (this.2 i hi)⟩
      · have h2 : groupByKey ((k, j) :: rest) = (k, [j]) :: (k2, is) :: gs' := by
          simp [groupByKey, hr, hk]
        rw [h2] at hg
        rcases List.mem_cons.mp hg with rfl | hg'
        · refine ⟨by simp, fun i hi => ?_⟩
          obtain rfl := List.mem_singleton.mp hi
          exact List.mem_cons_self _ _
        · have := ih g (by rw [hr]; exact hg')
          exact ⟨this.1, fun i hi => List.mem_cons_of_mem _ (this.2 i hi)⟩

/-- Every id inside a `finish` group comes, with its group key, from the
raw `word_variants` list. -/
theorem finishGroups_ids (wv : List (List Char × Nat)) (g : List Char × List Nat)
    (hg : g ∈ finishGroups wv) :
    g.2 ≠ [] ∧ ∀ i ∈ g.2, (g.1, i) ∈ wv := by
  rw [finishGroups] at hg
  obtain ⟨hne, hin⟩ := gbk_mem _ g hg
  refine ⟨hne, fun i hi => ?_⟩
  have h2 := (dedup_pairs_sublist _).subset (hin i hi)
  exact (List.perm_insertionSort _ wv).mem_iff.mp h2

theorem buildStep_fold_inv : ∀ (gs : List (List Char × List Nat))
    (acc : List (List Char × Nat) × List (List Nat)),
    (∀ g ∈ gs, g.2.length = 1 → g.2.headD 0 < BIG_NUMBER) →
    (∀ p ∈ acc.1, BIG_NUMBER ≤ p.2 → p.2 - BIG_NUMBER < acc.2.length) →
    ∀ p ∈ (gs.foldl buildStep acc).1, BIG_NUMBER ≤ p.2 →
      p.2 - BIG_NUMBER < (gs.foldl buildStep acc).2.length := by
  intro gs
  induction gs with
  | nil =>
    intro acc _ hacc
    simpa using hacc
  | cons g gs' ih =>
    intro acc hg hacc
    rw [List.foldl_cons]
    refine ih (buildStep acc g) (fun g' hg' => hg g' (List.mem_cons_of_mem _ hg')) ?_
    intro p hp hbig
    rw [buildStep] at hp ⊢
    by_cases hl : g.2.length = 1
    · rw [if_pos hl] at hp ⊢
      rcases List.mem_append.mp hp with hp' | hp'
      · exact hacc p hp' hbig
      · obtain rfl := List.mem_singleton.mp hp'
        exact absurd hbig (Nat.not_le_of_lt (hg g (List.mem_cons_self _ _) hl))
    · rw [if_neg hl] at hp ⊢
      rcases List.mem_append.mp hp with hp' | hp'
      · have := hacc p hp' hbig
        simp only [List.length_append, List.length_singleton]
        omega
      · obtain rfl := List.mem_singleton.mp hp'
        simp only [List.length_append, List.length_singleton]
        omega

/-- Generic fold lemma: a step that sends `some` to `some` keeps the
fold defined. -/
theorem foldl_some_isSome {α β : Type} (step : Option β → α → Option β)
    (hstep : ∀ b a, (step (some b) a).isSome = true) :
    ∀ (l : List α) (b : β), (l.foldl step (some b)).isSome = true := by
  intro l
  induction l with
  | nil => intro b; rfl
  | cons a t ih =>
    intro b
    rw [List.foldl_cons]
    obtain ⟨b', hb'⟩ := Option.isSome_iff_exists.mp (hstep b a)
    rw [hb']
    exact ih b'

/-- Under the overflow invariant, the candidate-probing loop of `lookup`
never indexes out of bounds. -/
theorem lookup_matches_isSome (m : FuzzyMap)
    (hinv : ∀ p ∈ m.fst, BIG_NUMBER ≤ p.2 → p.2 - BIG_NUMBER < m.id_list.length)
    (cands : List (List Char)) : (lookup_matches m cands).isSome = true := by
  rw [lookup_matches]
  apply foldl_some_isSome
  intro ms i
  dsimp only
  cases hg : m.get i with
  | none => rfl
  | some idx =>
    dsimp only
    by_cases hb : idx < BIG_NUMBER
    · rw [if_pos hb]
      rfl
    · rw [if_neg hb]
      rw [FuzzyMap.get] at hg
      cases hf : m.fst.find? (fun p => p.1 = i) with
      | none => rw [hf] at hg; exact absurd hg (by simp)
      | some p =>
        rw [hf] at hg
        have hp2 : p.2 = idx := by simpa using hg
        have hmem := List.mem_of_find?_eq_some hf
        have hlt : idx - BIG_NUMBER < m.id_list.length := by
          have := hinv p hmem (by omega)
          omega
        cases hx : m.id_list.get? (idx - BIG_NUMBER) with
        | none =>
          exfalso
          rw [List.get?_eq_none] at hx
          omega
        | some xs => rfl

/-- C9 (amended): for a map whose FST and overflow table come from one
`finish` run over pairs whose ids are all below `BIG_NUMBER` (as holds
for `build_from_iter`, which uses vocabulary positions as ids, whenever
the vocabulary has fewer than 2^30 words), every output `>= BIG_NUMBER`
is an in-bounds overflow index and `lookup` never panics. The claim as
stated, over every `finish` run, is refuted by
`overflow_indexing_counterexample`: `insert` accepts an arbitrary id,
and an id `>= BIG_NUMBER` becomes an output that `lookup` misreads as
an overflow index. -/
theorem overflow_indexing_safe (wv : List (List Char × Nat)) (m : FuzzyMap)
    (hids : ∀ p ∈ wv, p.2 < BIG_NUMBER)
    (hok : FuzzyMapBuilder.finish wv = Except.ok m) :
    (∀ p ∈ m.fst, BIG_NUMBER ≤ p.2 → p.2 - BIG_NUMBER < m.id_list.length) ∧
    ∀ (query : List Char) (d : Nat) (f : Nat → List Char),
      (m.lookup query d f).isSome = true := by
  have hm : m = FuzzyMap.mk (finishBuilt wv).2 (finishBuilt wv).1 := by
    rw [FuzzyMapBuilder.finish] at hok
    split at hok
    · exact (Except.ok.inj hok).symm
    · exact absurd hok (by simp)
  subst hm
  have hbound : ∀ g ∈ finishGroups wv, g.2.length = 1 → g.2.headD 0 < BIG_NUMBER := by
    intro g hg hl
    obtain ⟨hne, hin⟩ := finishGroups_ids wv g hg
    cases hg2 : g.2 with
    | nil => exact absurd hg2 hne
    | cons a t =>
      have ha : (g.1, a) ∈ wv := hin a (by rw [hg2]; exact List.mem_cons_self _ _)
      simpa using hids _ ha
  have hinv : ∀ p ∈ (finishBuilt wv).1, BIG_NUMBER ≤ p.2 →
      p.2 - BIG_NUMBER < (finishBuilt wv).2.length := by
    intro p hp hbig
    rw [finishBuilt] at hp ⊢
    exact buildStep_fold_inv (finishGroups wv) ([], []) hbound (by simp) p hp hbig
  refine ⟨hinv, ?_⟩
  intro q d f
  rw [FuzzyMap.lookup]
  obtain ⟨ms, hms⟩ := Option.isSome_iff_exists.mp
    (lookup_matches_isSome (FuzzyMap.mk (finishBuilt wv).2 (finishBuilt wv).1)
      hinv (q :: get_variants q d))
  rw [hms]
  rfl

/-- Witness for `overflow_indexing_safe`: a one-word build whose only id
is 0. -/
theorem overflow_indexing_safe_witness :
    (∀ p ∈ [([ 'a' ], 0)], p.2 < BIG_NUMBER) ∧
    ((∀ p ∈ (FuzzyMap.mk [] [([ 'a' ], 0)]).fst,
        BIG_NUMBER ≤ p.2 → p.2 - BIG_NUMBER < (FuzzyMap.mk [] [([ 'a' ], 0)]).id_list.length) ∧
      ∀ (query : List Char) (d : Nat) (f : Nat → List Char),
        ((FuzzyMap.mk [] [([ 'a' ], 0)]).lookup query d f).isSome = true) := by
  have hids : ∀ p ∈ [([ 'a' ], 0)], p.2 < BIG_NUMBER := by decide
  have hok : FuzzyMapBuilder.finish [([ 'a' ], 0)] =
      Except.ok (FuzzyMap.mk [] [([ 'a' ], 0)]) := by rfl
  exact ⟨hids, overflow_indexing_safe [([ 'a' ], 0)] (FuzzyMap.mk [] [([ 'a' ], 0)]) hids hok⟩

/-- Refutation of C9 as stated: one public `insert` with id
`BIG_NUMBER` produces, through a single `finish` run, a map on which
`lookup` of that word indexes the empty overflow table out of bounds
(the `none` result models the panic). -/
theorem overflow_indexing_counterexample :
    FuzzyMapBuilder.finish [([ 'a' ], BIG_NUMBER)] =
      Except.ok (FuzzyMap.mk [] [([ 'a' ], BIG_NUMBER)]) ∧
    ((FuzzyMap.mk [] [([ 'a' ], BIG_NUMBER)]).lookup [ 'a' ] 0
      (fun _ => [])).isSome = false := by
  exact ⟨rfl, rfl⟩

/-! ### Empty-query lookup (claim C5) -/

theorem variants_upto_nil : ∀ d : Nat, variants_upto d [] = [] := by
  intro d
  cases d with
  | zero => rfl
  | succ d => simp [variants_upto, deletions1]

theorem deletions1_length : ∀ (w v : List Char), v ∈ deletions1 w →
    v.length + 1 = w.length := by
  intro w
  induction w with
  | nil => intro v hv; simp [deletions1] at hv
  | cons c rest ih =>
    intro v hv
    rw [deletions1] at hv
    rcases List.mem_cons.mp hv with rfl | hv'
    · simp
    · obtain ⟨u, hu, rfl⟩ := List.mem_map.mp hv'
      have := ih u hu
      simp only [List.length_cons]
      omega

theorem variants_upto_length : ∀ (d : Nat) (w v : List Char),
    v ∈ variants_upto d w → w.length ≤ v.length + d := by
  intro d
  induction d with
  | zero => intro w v hv; simp [variants_upto] at hv
  | succ d ih =>
    intro w v hv
    rw [variants_upto] at hv
    rcases List.mem_append.mp hv with hv' | hv'
    · have := deletions1_length w v hv'
      omega
    · obtain ⟨u, hu, hvu⟩ := List.mem_flatMap.mp hv'
      have h1 := deletions1_length w u hu
      have h2 := ih u v hvu
      omega

theorem foldl_insert_eq (d : Nat) : ∀ (l : List (Nat × List Char))
    (acc : List (List Char × Nat)),
    l.foldl (fun wv p => FuzzyMapBuilder.insert wv p.2 p.1 d) acc =
      acc ++ l.flatMap
        (fun p => (p.2, p.1) :: (get_variants p.2 d).map (fun v => (v, p.1))) := by
  intro l
  induction l with
  | nil => intro acc; simp
  | cons p t ih =>
    intro acc
    rw [List.foldl_cons, ih, FuzzyMapBuilder.insert]
    simp [List.append_assoc]

theorem enumFrom_snd_mem : ∀ (l : List (List Char)) (n : Nat) (p : Nat × List Char),
    p ∈ List.enumFrom n l → p.2 ∈ l := by
  intro l
  induction l with
  | nil => intro n p hp; simp [List.enumFrom] at hp
  | cons a t ih =>
    intro n p hp
    rw [List.enumFrom] at hp
    rcases List.mem_cons.mp hp with rfl | hp'
    · exact List.mem_cons_self _ _
    · exact List.mem_cons_of_mem _ (ih (n + 1) p hp')

/-- Every key in the raw `word_variants` list is a vocabulary word or a
deletion variant of one. -/
theorem word_variants_mem (words : List (List Char)) (d : Nat) (k : List Char)
    (i : Nat) (h : (k, i) ∈ word_variants_of words d) :
    k ∈ words ∨ ∃ w ∈ words, k ∈ get_variants w d := by
  rw [word_variants_of, foldl_insert_eq] at h
  simp only [List.nil_append] at h
  obtain ⟨p, hp, hkp⟩ := List.mem_flatMap.mp h
  have hw : p.2 ∈ words := enumFrom_snd_mem words 0 p hp
  rcases List.mem_cons.mp hkp with he | hm
  · obtain ⟨h1, _⟩ := Prod.mk.inj he
    exact Or.inl (h1 ▸ hw)
  · obtain ⟨v, hv, he⟩ := List.mem_map.mp hm
    obtain ⟨h1, _⟩ := Prod.mk.inj he
    exact Or.inr ⟨p.2, hw, h1 ▸ hv⟩

/-- Every key the `finish` fold emits comes from the raw
`word_variants` list. -/
theorem finishBuilt_keys (wv : List (List Char × Nat)) (p : List Char × Nat)
    (hp : p ∈ (finishBuilt wv).1) : ∃ i, (p.1, i) ∈ wv := by
  have h1 : p.1 ∈ ((finishBuilt wv).1).map Prod.fst := List.mem_map_of_mem _ hp
  rw [finishBuilt, finishBuilt_map_fst] at h1
  simp only [List.map_nil, List.nil_append] at h1
  obtain ⟨g, hg, hgk⟩ := List.mem_map.mp h1
  obtain ⟨hne, hin⟩ := finishGroups_ids wv g hg
  cases hg2 : g.2 with
  | nil => exact absurd hg2 hne
  | cons a t =>
    exact ⟨a, hgk ▸ hin a (by rw [hg2]; exact List.mem_cons_self _ _)⟩

/-- C5 (amended): for a map built by `build_from_iter` from a vocabulary
in which every word is longer than `d` scalar values, looking up the
empty string returns the empty list: no key of the FST is empty, the
empty query has no variants, and so no candidate hits. The claim as
stated — for every non-empty vocabulary and every `d` — is refuted by
`lookup_empty_counterexample`: a word of length `<= d` contributes the
empty string as a deletion variant, which the empty query then hits
exactly. -/
theorem lookup_empty_amended (words : List (List Char)) (d : Nat) (m : FuzzyMap)
    (f : Nat → List Char) (hw : ∀ w ∈ words, d < w.length)
    (hok : build_from_iter words d = Except.ok m) :
    m.lookup [] d f = some [] := by
  have hm : m = FuzzyMap.mk (finishBuilt (word_variants_of words d)).2
      (finishBuilt (word_variants_of words d)).1 := by
    rw [build_from_iter, FuzzyMapBuilder.finish] at hok
    split at hok
    · exact (Except.ok.inj hok).symm
    · exact absurd hok (by simp)
  subst hm
  have hkeys : ∀ p ∈ (finishBuilt (word_variants_of words d)).1, p.1 ≠ [] := by
    intro p hp
    obtain ⟨i, hi⟩ := finishBuilt_keys _ p hp
    rcases word_variants_mem words d p.1 i hi with hw' | ⟨w, hww, hv⟩
    · have := hw _ hw'
      intro hnil
      rw [hnil] at this
      simp at this
    · have h1 := variants_upto_length d w p.1 hv
      have h2 := hw w hww
      intro hnil
      rw [hnil] at h1
      simp only [List.length_nil, Nat.zero_add] at h1
      omega
  have hget : (FuzzyMap.mk (finishBuilt (word_variants_of words d)).2
      (finishBuilt (word_variants_of words d)).1).get [] = none := by
    rw [FuzzyMap.get]
    have hfind : (finishBuilt (word_variants_of words d)).1.find?
        (fun p => p.1 = []) = none := by
      rw [List.find?_eq_none]
      intro x hx
      simp [hkeys x hx]
    rw [hfind]
    rfl
  have hcands : get_variants [] d = ([] : List (List Char)) := by
    rw [get_variants]
    exact variants_upto_nil d
  rw [FuzzyMap.lookup, hcands]
  have hlm : lookup_matches (FuzzyMap.mk (finishBuilt (word_variants_of words d)).2
      (finishBuilt (word_variants_of words d)).1) [[]] = some [] := by
    rw [lookup_matches, List.foldl_cons, List.foldl_nil]
    dsimp only
    rw [hget]
  rw [hlm]
  rfl

/-- Witness for `lookup_empty_amended`: the vocabulary `["ab"]` at
`d = 1`, whose words are all longer than 1. -/
theorem lookup_empty_amended_witness :
    (∀ w ∈ [[ 'a', 'b' ]], 1 < w.length) ∧
    (FuzzyMap.mk [] [([ 'a' ], 0), ([ 'a', 'b' ], 0), ([ 'b' ], 0)]).lookup [] 1
      (fun _ => []) = some [] := by
  have hw : ∀ w ∈ [[ 'a', 'b' ]], 1 < w.length := by decide
  have hok : build_from_iter [[ 'a', 'b' ]] 1 =
      Except.ok (FuzzyMap.mk [] [([ 'a' ], 0), ([ 'a', 'b' ], 0), ([ 'b' ], 0)]) := by
    rfl
  exact ⟨hw, lookup_empty_amended [[ 'a', 'b' ]] 1 _ (fun _ => []) hw hok⟩

/-- Refutation of C5 as stated: the non-empty vocabulary `["a"]` at
`d = 1` seeds the empty string as a deletion variant of `"a"`, so the
FST maps the empty key to id 0 and `lookup("", 1, …)` returns
`[("a", 0)]`, not the empty list. -/
theorem lookup_empty_counterexample :
    build_from_iter [[ 'a' ]] 1 =
      Except.ok (FuzzyMap.mk [] [([], 0), ([ 'a' ], 0)]) ∧
    (FuzzyMap.mk [] [([], 0), ([ 'a' ], 0)]).lookup [] 1 (fun _ => [ 'a' ]) =
      some [([ 'a' ], 0)] ∧
    some [([ 'a' ], 0)] ≠ (some [] : Option (List (List Char × Nat))) := by
  refine ⟨by rfl, ?_, by simp⟩
  have hdl : damerau_levenshtein [] [ 'a' ] = 1 := by
    simp [damerau_levenshtein]
  have h1 : (FuzzyMap.mk [] [([], 0), ([ 'a' ], 0)]).lookup [] 1 (fun _ => [ 'a' ]) =
      some (List.filter (fun p => damerau_levenshtein [] p.1 ≤ 1) [([ 'a' ], 0)]) :=
    rfl
  rw [h1]
  simp [hdl]
